import Mathlib

/-!
Verification of the cube decoding and reshaping engine of `statxplorer`
(src/statxplorer.py) against its specification.

The embedding models the core of `StatXplorer.convert_to_dataframe` and its
helper generators `field_looper` and `value_looper`.  Python generators are
modelled as the pair of the list of items they yield before finishing or
raising, together with an error flag (`true` when the generator raises);
operations that can raise eagerly are modelled in the `Option` monad.
Insertion-ordered dictionaries (`OrderedDict`, and the insertion-ordered
plain dicts used for the code lookup) are modelled as association lists with
in-place update on existing keys.
-/

namespace StatXplorer

/-- A nested numeric array: the JSON value `results["cubes"][uri]["values"]`
for one measure.  A `leaf` is a bottom-level array of numbers, a `node` is an
array of sub-arrays.  The empty array is representable as `leaf []` or
`node []`; both behave identically everywhere below, mirroring the fact that
the JSON text `[]` is one object. -/
inductive Cube where
  | leaf : List Int → Cube
  | node : List Cube → Cube

mutual
/-- Embedding of the generator `value_looper` (src/statxplorer.py lines
63-75).  The generator inspects `array[0]`: if it is a list it recurses into
every element of `array` in order, otherwise it yields each element of
`array` in order.  Returned is the stream of yielded scalars together with
an error flag: `array[0]` raises `IndexError` on an empty array, which ends
the stream with the flag set after the items yielded so far. -/
def value_looper : Cube → List Int × Bool
  | .leaf [] => ([], true)
  | .leaf (n :: rest) => (n :: rest, false)
  | .node [] => ([], true)
  | .node (c :: cs) => vlList (c :: cs)

/-- The inner loop of `value_looper`'s recursive branch: recurse into each
child array in order, propagating an error as soon as one child raises. -/
def vlList : List Cube → List Int × Bool
  | [] => ([], false)
  | c :: cs =>
    let p := value_looper c
    if p.2 then (p.1, true)
    else
      let q := vlList cs
      (p.1 ++ q.1, q.2)
end

mutual
/-- The depth-first sequence of scalar leaves of a cube (the row-major
flattening that `value_looper` produces on well-formed input). -/
def flatten : Cube → List Int
  | .leaf ns => ns
  | .node cs => flattenList cs

/-- Concatenation of the flattenings of a list of cubes. -/
def flattenList : List Cube → List Int
  | [] => []
  | c :: cs => flatten c ++ flattenList cs
end

mutual
/-- `hasShape c dims` holds when `c` is a uniformly nested array of
dimensions `dims`: a cube of shape `[d]` is a bottom-level array of `d`
numbers, and a cube of shape `d :: r :: rest` is an array of `d` sub-cubes
each of shape `r :: rest`. -/
def hasShape : Cube → List Nat → Bool
  | .leaf ns, dims =>
    match dims with
    | [d] => ns.length == d
    | _ => false
  | .node cs, dims =>
    match dims with
    | d :: r :: rest => cs.length == d && hasShapeList cs (r :: rest)
    | _ => false

/-- All cubes in the list have shape `dims`. -/
def hasShapeList : List Cube → List Nat → Bool
  | [], _ => true
  | c :: cs, dims => hasShape c dims && hasShapeList cs dims
end

/-- Split a list of scalars into `n` consecutive chunks of `k` elements
each (the shape-directed inverse of flattening one nesting level). -/
def chunksOf (k : Nat) : Nat → List Int → List (List Int)
  | 0, _ => []
  | n + 1, vs => vs.take k :: chunksOf k n (vs.drop k)

/-- Shape-directed re-nesting of a flat scalar sequence, the inverse of
`flatten` used by the spec's round-trip property: a sequence re-nested by
shape `[d]` is a bottom-level array, and by shape `d :: r :: rest` an array
of `d` chunks each re-nested by `r :: rest`. -/
def renest : List Nat → List Int → Cube
  | [], vs => .leaf vs
  | [_], vs => .leaf vs
  | d :: r :: rest, vs =>
    .node ((chunksOf ((r :: rest).prod) d vs).map (fun chunk => renest (r :: rest) chunk))

/-- Setting `d[k] = v` on an insertion-ordered dictionary: replace the value
in place when the key is present, append the pair otherwise. -/
def odInsert {α : Type} (d : List (String × α)) (k : String) (v : α) : List (String × α) :=
  if d.any (fun p => p.1 == k) then d.map (fun p => if p.1 == k then (k, v) else p)
  else d ++ [(k, v)]

/-- Embedding of `dict.update`: insert every pair of `entries` in order. -/
def odUpdate {α : Type} (d : List (String × α)) (entries : List (String × α)) :
    List (String × α) :=
  entries.foldl (fun acc p => odInsert acc p.1 p.2) d

/-- Embedding of the generator `field_looper` (src/statxplorer.py lines
40-60) as the stream of combinations it yields plus an error flag.  The
body first asserts that the two lists have equal length; with a single
field it yields one singleton mapping per label; otherwise it loops over
the first field's labels and, for each, re-runs itself on the remaining
fields, prepending the fixed first-field pair via an `OrderedDict` built
from that pair and updated with the lower-level mapping.  With no fields at
all the `else` branch evaluates `field_labels[0]` and raises `IndexError`. -/
def field_looper : List String → List (List String) → List (List (String × String)) × Bool
  | names, labels =>
    if names.length ≠ labels.length then ([], true)
    else
      match names, labels with
      | [], _ => ([], true)
      | _ :: _, [] => ([], true)
      | [n], ls :: _ => (ls.map (fun l => [(n, l)]), false)
      | n :: ns, ls :: lss =>
        match ls with
        | [] => ([], false)
        | l0 :: _ =>
          let lower := field_looper ns lss
          if lower.2 then (lower.1.map (fun low => odUpdate [(n, l0)] low), true)
          else ((ls.map (fun l => lower.1.map (fun low => odUpdate [(n, l)] low))).flatten, false)

/-- Row-major Cartesian product of a list of label lists: the first list
varies slowest, the last list fastest.  Reference enumeration that
`field_looper`'s output is proved to follow. -/
def cartesian : List (List String) → List (List String)
  | [] => [[]]
  | ls :: rest => (ls.map (fun l => (cartesian rest).map (fun t => l :: t))).flatten

/-- One cell value of a flat record: a category label or a measure value. -/
inductive Cell where
  | s : String → Cell
  | v : Int → Cell
deriving DecidableEq

/-- A flat record: the insertion-ordered row dictionary built at
src/statxplorer.py lines 165-168. -/
abbrev Record := List (String × Cell)

/-- One category item of a field: `{"labels": [...], "uris": [...]}`; the
`uris` key may be absent. -/
structure Item where
  labels : List String
  uris : Option (List String)
deriving DecidableEq

/-- One field of the response: `{"label": ..., "items": [...]}`. -/
structure Field where
  label : String
  items : List Item
deriving DecidableEq

/-- One measure of the response: `{"label": ..., "uri": ...}`. -/
structure Measure where
  label : String
  uri : String
deriving DecidableEq

/-- The decoded response consumed by `convert_to_dataframe`: ordered
`fields` and `measures`, and the `cubes` object mapping each measure uri to
that cube's `values` nested array. -/
structure Results where
  fields : List Field
  measures : List Measure
  cubes : List (String × Cube)

/-- Dictionary lookup `results["cubes"][uri]` (the stored value is the
cube's `values` array); `none` models `KeyError`. -/
def lookupCube (cubes : List (String × Cube)) (uri : String) : Option Cube :=
  (cubes.find? (fun p => p.1 == uri)).map (fun p => p.2)

/-- Evaluation of a list of fallible steps in order, stopping at the first
failure: the semantics of a Python loop or comprehension in which each
iteration may raise. -/
def mapMO {α β : Type} (g : α → Option β) : List α → Option (List β)
  | [] => some []
  | x :: xs =>
    match g x with
    | none => none
    | some y =>
      match mapMO g xs with
      | none => none
      | some ys => some (y :: ys)

/-- Fallible left fold, stopping at the first failure: the semantics of a
Python accumulation loop in which each iteration may raise. -/
def foldMO {σ α : Type} (g : σ → α → Option σ) : σ → List α → Option σ
  | s, [] => some s
  | s, x :: xs =>
    match g s x with
    | none => none
    | some s' => foldMO g s' xs

/-- Embedding of `zip(a, b)` over two generator streams, as consumed by the
record-building loop: `zip` pulls from `a` first, then from `b`, and stops
at the first exhausted stream, so it truncates to the shorter stream; it
propagates an error only if the stream that ends first ends by raising
rather than by finishing. -/
def zipStream {α β : Type} (a : List α × Bool) (b : List β × Bool) :
    Option (List (α × β)) :=
  if a.1.length ≤ b.1.length then
    if a.2 then none else some (a.1.zip b.1)
  else
    if b.2 then none else some (a.1.zip b.1)

/-- Field names `[f["label"] for f in results["fields"]]`
(src/statxplorer.py line 132). -/
def fieldNames (r : Results) : List String :=
  r.fields.map (fun f => f.label)

/-- Total description of the per-field label lists
`[f["labels"][0] for f in field["items"]]` (src/statxplorer.py line 138),
using the first label of each item (default `""` when absent; the embedding
of the actual extraction, in `build_data`, fails instead when absent). -/
def fieldLabelsI (r : Results) : List (List String) :=
  r.fields.map (fun f => f.items.map (fun it => it.labels.headI))

/-- The per-field item counts, which a well-formed response's cubes have as
their dimensions. -/
def dimsOf (r : Results) : List Nat :=
  r.fields.map (fun f => f.items.length)

/-- The records contributed by one measure (the body of the loop at
src/statxplorer.py lines 160-168): look up the measure's cube, zip the
field-combination stream with the value stream, and build one ordered row
per pair by updating the combination dictionary with
`{measure["label"]: value}`. -/
def measureData (field_names : List String) (field_labels : List (List String))
    (cubes : List (String × Cube)) (m : Measure) : Option (List Record) :=
  match lookupCube cubes m.uri with
  | none => none
  | some cube =>
    match zipStream (field_looper field_names field_labels) (value_looper cube) with
    | none => none
    | some pairs =>
      some (pairs.map (fun p =>
        odUpdate (p.1.map (fun q => (q.1, Cell.s q.2))) [(m.label, Cell.v p.2)]))

/-- The record builder (src/statxplorer.py lines 130-170): compute the field
names and per-field label lists, then accumulate each measure's records in
declared measure order into one flat list.  `none` models an uncaught
exception (`IndexError` on an item with no labels, `KeyError` on a missing
cube, or a generator raising mid-zip). -/
def build_data (r : Results) : Option (List Record) :=
  match mapMO (fun f => mapMO (fun it => it.labels.head?) f.items) r.fields with
  | none => none
  | some field_labels =>
    match mapMO (measureData (fieldNames r) field_labels r.cubes) r.measures with
    | none => none
    | some chunks => some chunks.flatten

/-- Checks that the response's cube for a given uri exists and has the
expected dimensions. -/
def cubeOk (cubes : List (String × Cube)) (dims : List Nat) (uri : String) : Bool :=
  match lookupCube cubes uri with
  | some c => hasShape c dims
  | none => false

/-- Reference description of one measure's records: the i-th Cartesian
combination of item labels paired with the i-th scalar of the depth-first
flattening of that measure's cube, fields listed in response order followed
by the measure's value. -/
def measureRecordsSpec (r : Results) (m : Measure) : List Record :=
  match lookupCube r.cubes m.uri with
  | some cube =>
    ((cartesian (fieldLabelsI r)).zip (flatten cube)).map
      (fun p => ((fieldNames r).zip p.1).map (fun q => (q.1, Cell.s q.2))
        ++ [(m.label, Cell.v p.2)])
  | none => []

/-- Column lookup in one record. -/
def odLookup (rec : Record) (k : String) : Option Cell :=
  (rec.find? (fun p => p.1 == k)).map (fun p => p.2)

/-- Column lookup coerced to the label string stored there (the pivot keys
are the category label strings; records built by `build_data` always carry a
label string under every field name). -/
def odLookupStr (rec : Record) (k : String) : String :=
  match odLookup rec k with
  | some (Cell.s s) => s
  | _ => ""

/-- The result of `data_pd.set_index(field_names[0])` on the flat record
list (src/statxplorer.py line 182): each row is keyed by its value in the
index column, remaining columns unchanged, row order unchanged. -/
structure SingleTable where
  indexName : String
  rows : List (Option Cell × Record)
deriving DecidableEq

/-- Embedding of `DataFrame.set_index` on the flat record list. -/
def set_index (recs : List Record) (k : String) : SingleTable :=
  ⟨k, recs.map (fun rec => (odLookup rec k, rec.filter (fun p => p.1 != k)))⟩

/-- First-occurrence deduplication, the embedding of pandas
`Series.unique`, which returns the distinct values in order of first
appearance (src/statxplorer.py line 197). -/
def pdUniqueAux {α : Type} [DecidableEq α] (seen : List α) : List α → List α
  | [] => []
  | x :: xs => if x ∈ seen then pdUniqueAux seen xs else x :: pdUniqueAux (x :: seen) xs

/-- Distinct values of a list in order of first appearance. -/
def pdUnique {α : Type} [DecidableEq α] (l : List α) : List α := pdUniqueAux [] l

/-- Lexicographic strict order on character lists. -/
def charListLt : List Char → List Char → Bool
  | [], [] => false
  | [], _ :: _ => true
  | _ :: _, [] => false
  | a :: as, b :: bs => if a < b then true else if a = b then charListLt as bs else false

/-- Code-point-lexicographic comparison of strings, the order by which
pandas sorts string group keys. -/
def strLt (a b : String) : Bool := charListLt a.data b.data

/-- Lexicographic order on row-key tuples (pandas sorts a multi-level group
key tuple componentwise). -/
def keyLt : List String → List String → Bool
  | [], [] => false
  | [], _ :: _ => true
  | _ :: _, [] => false
  | a :: as, b :: bs => if strLt a b then true else if a = b then keyLt as bs else false

/-- Insertion step of the ascending insertion sort on strings. -/
def insertStr (x : String) : List String → List String
  | [] => [x]
  | y :: ys => if strLt x y then x :: y :: ys else y :: insertStr x ys

/-- Ascending sort of strings, modelling the sorted order pandas gives
grouped keys. -/
def sortStrings : List String → List String
  | [] => []
  | x :: xs => insertStr x (sortStrings xs)

/-- Insertion step of the ascending insertion sort on row-key tuples. -/
def insertKey (x : List String) : List (List String) → List (List String)
  | [] => [x]
  | y :: ys => if keyLt x y then x :: y :: ys else y :: insertKey x ys

/-- Ascending sort of row-key tuples. -/
def sortKeys : List (List String) → List (List String)
  | [] => []
  | x :: xs => insertKey x (sortKeys xs)

/-- The row key of a record for the given index columns. -/
def rowKeyOf (indices : List String) (rec : Record) : List String :=
  indices.map (fun n => odLookupStr rec n)

/-- One aggregated cell of the pivot: the mean (pandas `pivot_table`'s
default aggregation) of the values of the records matching the row key and
column key, or `none` (NaN) when no record matches. -/
def cellValue (recs : List Record) (valueName : String) (indices : List String)
    (colName : String) (rk : List String) (ck : String) : Option Rat :=
  let ms := recs.filter (fun rec =>
    rowKeyOf indices rec == rk && odLookupStr rec colName == ck)
  let vals := ms.filterMap (fun rec =>
    match odLookup rec valueName with
    | some (Cell.v z) => some z
    | _ => none)
  match vals with
  | [] => none
  | _ => some (mkRat vals.sum vals.length)

/-- A pivoted table: named row-index levels, row keys in display order,
column labels in display order, and the row-major cell grid. -/
structure PivotTable where
  indexNames : List String
  rowKeys : List (List String)
  colNames : List String
  cells : List (List (Option Rat))
deriving DecidableEq

/-- Modelled from pandas semantics: `pd.pivot_table(df, values, index,
columns)` with a single value column groups the rows by the index and
column keys, aggregates duplicate groups by mean, and displays both the row
keys and the column labels in ascending sorted order (its grouping sorts
keys); groups with no row display NaN (`none`). -/
def pivot_table (recs : List Record) (valueName : String) (indices : List String)
    (colName : String) : PivotTable :=
  let rks := sortKeys (pdUnique (recs.map (fun rec => rowKeyOf indices rec)))
  let cols := sortStrings (pdUnique (recs.map (fun rec => odLookupStr rec colName)))
  ⟨indices, rks, cols,
    rks.map (fun rk => cols.map (fun ck => cellValue recs valueName indices colName rk ck))⟩

/-- Embedding of `data_pd[column_labels]` (src/statxplorer.py line 208):
re-select the columns, by label, in the given order; a label absent from
the table's columns raises `KeyError` (`none`). -/
def reorderCols (pt : PivotTable) (labels : List String) : Option PivotTable :=
  if labels.all (fun l => pt.colNames.contains l) then
    some { pt with
      colNames := labels,
      cells := pt.cells.map (fun row =>
        labels.map (fun l =>
          ((((pt.colNames.zip row).find? (fun q => q.1 == l)).map
            (fun q => q.2)).getD none))) }
  else none

/-- Embedding of the pivot branch of `convert_to_dataframe`
(src/statxplorer.py lines 183-208, `include_codes` disabled): row index
built from field 0 plus fields 2 and beyond, columns from field 1, field
1's labels captured in source order before the pivot and the pivoted
columns re-selected in that order afterwards.  The branch requires at least
two fields.  With more than one measure `pd.pivot_table` receives a list of
value columns and produces two-level columns whose outer level holds the
measure labels, so the re-selection by field-1 labels at line 208 raises
`KeyError`; that failure is modelled as `none`. -/
def reshape_pivot (r : Results) (recs : List Record) : Option PivotTable :=
  match fieldNames r, r.measures with
  | n0 :: n1 :: rest, [m] =>
    let column_labels := pdUnique (recs.map (fun rec => odLookupStr rec n1))
    reorderCols (pivot_table recs m.label (n0 :: rest) n1) column_labels
  | _, _ => none

/-- Substring of a uri after its final colon, the embedding of
`uri.rsplit(":", maxsplit=1)[1]` (src/statxplorer.py line 151): `none`
models the `IndexError` raised when the uri contains no colon and the
rsplit therefore yields a single part. -/
def afterLastColon : List Char → Option (List Char)
  | [] => none
  | c :: rest =>
    match afterLastColon rest with
    | some tail => some tail
    | none => if c = ':' then some rest else none

/-- The candidate code of a uri: the substring after the final colon. -/
def code_of_uri (uri : String) : Option String :=
  (afterLastColon uri.data).map (fun cs => String.mk cs)

/-- Python `code[0].isalpha()` for the candidate code (the codes the source
recognises are ASCII ONS identifiers). -/
def firstAlpha (code : String) : Bool :=
  match code.data with
  | c :: _ => c.isAlpha
  | [] => false

/-- The per-field code dictionaries built by the `include_codes` scan. -/
abbrev FCodes := List (String × List (String × String))

/-- Setting `field_codes[fl][il] = code`, creating the inner dictionary for
`fl` on first use (src/statxplorer.py lines 153-155). -/
def fcInsert (fc : FCodes) (fl il code : String) : FCodes :=
  if fc.any (fun e => e.1 == fl) then
    fc.map (fun e => if e.1 == fl then (e.1, odInsert e.2 il code) else e)
  else fc ++ [(fl, [(il, code)])]

/-- Processing of one item by the code scan (src/statxplorer.py lines
146-155): skip items without a `uris` key; otherwise take the first uri's
trailing colon-delimited segment and, when it is exactly 9 characters long
and starts with a letter, record it under the item's first label. -/
def itemStep (fl : String) (fc : FCodes) (it : Item) : Option FCodes :=
  match it.uris with
  | none => some fc
  | some us =>
    match us.head? with
    | none => none
    | some u =>
      match code_of_uri u with
      | none => none
      | some code =>
        if code.length == 9 && firstAlpha code then
          match it.labels.head? with
          | none => none
          | some il => some (fcInsert fc fl il code)
        else some fc

/-- The code scan over all fields and items (src/statxplorer.py lines
144-155). -/
def field_codes (fields : List Field) : Option FCodes :=
  foldMO (fun fc f => foldMO (itemStep f.label) fc f.items) [] fields

/-- The code an item contributes, per the spec's description: the substring
after the final colon of the item's first uri, provided the item carries a
uri and that substring has length exactly 9 and begins with an alphabetic
character; `none` otherwise. -/
def specCode (it : Item) : Option String :=
  match it.uris with
  | some (u :: _) =>
    match code_of_uri u with
    | some c => if c.length == 9 && firstAlpha c then some c else none
    | none => none
  | _ => none

/-- The (item label, code) entry an item contributes to its field. -/
def itemEntry (it : Item) : Option (String × String) :=
  (specCode it).map (fun c => (it.labels.headI, c))

/-- Reference description of the code lookup: one entry per field that has
at least one coded item, holding that field's coded items in item order. -/
def fcSpec (fields : List Field) : FCodes :=
  (fields.map (fun f => (f.label, f.items.filterMap itemEntry))).filter
    (fun e => !e.2.isEmpty)

/-- Lookup of the code recorded for an item label under a field label. -/
def lookupCode (fc : FCodes) (fl il : String) : Option String :=
  ((fc.find? (fun e => e.1 == fl)).map (fun e => e.2)).bind
    (fun d => (d.find? (fun p => p.1 == il)).map (fun p => p.2))

/-- Sequential insertion of one field's (item label, code) entries into the
code lookup: the reference form of the inner loop of the code scan. -/
def applyEntries (fl : String) (fc : FCodes) (entries : List (String × String)) : FCodes :=
  entries.foldl (fun d e => fcInsert d fl e.1 e.2) fc

/-- Well-formedness of one item for the code scan: a first label exists,
and when a `uris` key is present the uri list is non-empty and its first
uri contains a colon. -/
def itemOk (it : Item) : Bool :=
  !it.labels.isEmpty &&
    match it.uris with
    | none => true
    | some [] => false
    | some (u :: _) => (code_of_uri u).isSome

/-! ### Concrete responses used as test inputs -/

/-- The spec's record-builder test response: fields `A = [a1, a2]` and
`B = [b1, b2]`, one measure `M` with cube `[[10, 20], [30, 40]]`. -/
def c1ex : Results :=
  ⟨[⟨"A", [⟨["a1"], none⟩, ⟨["a2"], none⟩]⟩, ⟨"B", [⟨["b1"], none⟩, ⟨["b2"], none⟩]⟩],
   [⟨"M", "m"⟩],
   [("m", Cube.node [Cube.leaf [10, 20], Cube.leaf [30, 40]])]⟩

/-- A malformed response whose cube is shorter than the combination count:
field `A` has two items but the cube holds a single value. -/
def c2ex : Results :=
  ⟨[⟨"A", [⟨["a1"], none⟩, ⟨["a2"], none⟩]⟩], [⟨"M", "m"⟩], [("m", Cube.leaf [10])]⟩

/-- The spec's single-field reshape response: one field `A` with items
`[x, y]` and one measure `M` with values `[1, 2]`. -/
def c7ex : Results :=
  ⟨[⟨"A", [⟨["x"], none⟩, ⟨["y"], none⟩]⟩], [⟨"M", "m"⟩], [("m", Cube.leaf [1, 2])]⟩

/-- The single field of `c7ex`. -/
def c7field : Field := ⟨"A", [⟨["x"], none⟩, ⟨["y"], none⟩]⟩

/-- The spec's code-extraction examples in one field: an item whose uri
ends in `:E12000001` (a 9-character code), an item whose uri ends in `:AB1`
(too short), and an item with no uri. -/
def c6fields : List Field :=
  [⟨"Geo", [⟨["North"], some ["folk:type:E12000001"]⟩,
            ⟨["Odd"], some ["folk:type:AB1"]⟩,
            ⟨["Total"], none⟩]⟩]

/-- The spec's two-field reshape response with non-alphabetical source
order: fields `A = [a2, a1]` and `B = [b1, b2]`, one measure `M` with cube
`[[1, 2], [3, 4]]` (so cell(a2,b1)=1, cell(a2,b2)=2, cell(a1,b1)=3,
cell(a1,b2)=4). -/
def c5ex : Results :=
  ⟨[⟨"A", [⟨["a2"], none⟩, ⟨["a1"], none⟩]⟩, ⟨"B", [⟨["b1"], none⟩, ⟨["b2"], none⟩]⟩],
   [⟨"M", "m"⟩],
   [("m", Cube.node [Cube.leaf [1, 2], Cube.leaf [3, 4]])]⟩

/-- The reshape pipeline (record builder followed by the pivot branch)
applied to `c5ex`. -/
def c5pipeline : Option PivotTable :=
  match build_data c5ex with
  | some recs => reshape_pivot c5ex recs
  | none => none

/-- A field whose only item carries a uri containing no colon at all. -/
def c10bad : List Field := [⟨"Geo", [⟨["X"], some ["nocolonhere"]⟩]⟩]

/-- The bad item of `c10bad`. -/
def c10badItem : Item := ⟨["X"], some ["nocolonhere"]⟩

/-- A field list in which every uri present contains a colon. -/
def c10good : List Field :=
  [⟨"Geo", [⟨["North"], some ["folk:type:E12000001"]⟩, ⟨["Total"], none⟩]⟩]

/-! ### Lemmas about the value stream -/

theorem hasShapeList_iff (cs : List Cube) (dims : List Nat) :
    hasShapeList cs dims = true ↔ ∀ c ∈ cs, hasShape c dims = true := by
  induction cs with
  | nil => simp [hasShapeList]
  | cons c cs ih => simp [hasShapeList, ih]

theorem vlList_ok (cs : List Cube)
    (h : ∀ c ∈ cs, value_looper c = (flatten c, false)) :
    vlList cs = (flattenList cs, false) := by
  induction cs with
  | nil => simp [vlList, flattenList]
  | cons c cs ih =>
    have hc := h c (by simp)
    have ih' := ih (fun x hx => h x (List.mem_cons_of_mem _ hx))
    simp [vlList, flattenList, hc, ih']

theorem value_looper_flatten : ∀ (dims : List Nat) (c : Cube),
    hasShape c dims = true → (∀ d ∈ dims, 0 < d) →
    value_looper c = (flatten c, false) := by
  intro dims
  induction dims with
  | nil => intro c h _; cases c <;> simp [hasShape] at h
  | cons d rest ih =>
    intro c h hpos
    cases c with
    | leaf ns =>
      cases rest with
      | nil =>
        have hd : 0 < d := hpos d (by simp)
        simp [hasShape] at h
        cases ns with
        | nil => simp at h; omega
        | cons n ns' => simp [value_looper, flatten]
      | cons r rest' => simp [hasShape] at h
    | node cs =>
      cases rest with
      | nil => simp [hasShape] at h
      | cons r rest' =>
        simp [hasShape, hasShapeList_iff] at h
        obtain ⟨hlen, hall⟩ := h
        have hd : 0 < d := hpos d (by simp)
        have hne : cs ≠ [] := by
          intro e; subst e; simp at hlen; omega
        obtain ⟨c0, cs', rfl⟩ := List.exists_cons_of_ne_nil hne
        have : value_looper (Cube.node (c0 :: cs')) = vlList (c0 :: cs') := by
          simp [value_looper]
        rw [this, show flatten (Cube.node (c0 :: cs')) = flattenList (c0 :: cs') from rfl]
        exact vlList_ok _ (fun x hx =>
          ih x (hall x hx) (fun e he => hpos e (List.mem_cons_of_mem _ he)))

theorem flattenList_length (cs : List Cube) (k : Nat)
    (h : ∀ c ∈ cs, (flatten c).length = k) :
    (flattenList cs).length = cs.length * k := by
  induction cs with
  | nil => simp [flattenList]
  | cons c cs ih =>
    have hc := h c (by simp)
    have ih' := ih (fun x hx => h x (List.mem_cons_of_mem _ hx))
    simp [flattenList, hc, ih']
    ring

theorem flatten_length : ∀ (dims : List Nat) (c : Cube),
    hasShape c dims = true → (flatten c).length = dims.prod := by
  intro dims
  induction dims with
  | nil => intro c h; cases c <;> simp [hasShape] at h
  | cons d rest ih =>
    intro c h
    cases c with
    | leaf ns =>
      cases rest with
      | nil => simp [hasShape] at h; simp [flatten, h]
      | cons r rest' => simp [hasShape] at h
    | node cs =>
      cases rest with
      | nil => simp [hasShape] at h
      | cons r rest' =>
        simp [hasShape, hasShapeList_iff] at h
        obtain ⟨hlen, hall⟩ := h
        have : (flattenList cs).length = cs.length * (r :: rest').prod :=
          flattenList_length cs _ (fun x hx => ih x (hall x hx))
        simp [flatten, this, hlen, List.prod_cons]

theorem value_looper_zero : ∀ (dims : List Nat) (c : Cube),
    hasShape c dims = true → 0 ∈ dims → value_looper c = ([], true) := by
  intro dims
  induction dims with
  | nil => intro c h _; cases c <;> simp [hasShape] at h
  | cons d rest ih =>
    intro c h hz
    cases c with
    | leaf ns =>
      cases rest with
      | nil =>
        simp [hasShape] at h
        simp at hz
        subst hz
        have : ns = [] := List.length_eq_zero.mp h
        subst this
        simp [value_looper]
      | cons r rest' => simp [hasShape] at h
    | node cs =>
      cases rest with
      | nil => simp [hasShape] at h
      | cons r rest' =>
        simp [hasShape, hasShapeList_iff] at h
        obtain ⟨hlen, hall⟩ := h
        by_cases hd : d = 0
        · subst hd
          have : cs = [] := List.length_eq_zero.mp hlen
          subst this
          simp [value_looper]
        · have hz' : 0 ∈ r :: rest' := by
            rcases List.mem_cons.mp hz with h0 | h0
            · omega
            · exact h0
          have hne : cs ≠ [] := by
            intro e; subst e; simp at hlen; omega
          obtain ⟨c0, cs', rfl⟩ := List.exists_cons_of_ne_nil hne
          have h0 : value_looper c0 = ([], true) := ih c0 (hall c0 (by simp)) hz'
          simp [value_looper, vlList, h0]

/-! ### Round-trip between flatten and renest -/

theorem chunksOf_flattenList (k : Nat) (cs : List Cube)
    (h : ∀ c ∈ cs, (flatten c).length = k) :
    chunksOf k cs.length (flattenList cs) = cs.map flatten := by
  induction cs with
  | nil => simp [chunksOf, flattenList]
  | cons c cs ih =>
    have hc := h c (by simp)
    have ih' := ih (fun x hx => h x (List.mem_cons_of_mem _ hx))
    have htake : (flatten c ++ flattenList cs).take k = flatten c := by
      rw [← hc]; exact List.take_left _ _
    have hdrop : (flatten c ++ flattenList cs).drop k = flattenList cs := by
      rw [← hc]; exact List.drop_left _ _
    simp [chunksOf, flattenList, htake, hdrop, ih']

theorem renest_flatten : ∀ (dims : List Nat) (c : Cube),
    hasShape c dims = true → renest dims (flatten c) = c := by
  intro dims
  induction dims with
  | nil => intro c h; cases c <;> simp [hasShape] at h
  | cons d rest ih =>
    intro c h
    cases c with
    | leaf ns =>
      cases rest with
      | nil => simp [renest, flatten]
      | cons r rest' => simp [hasShape] at h
    | node cs =>
      cases rest with
      | nil => simp [hasShape] at h
      | cons r rest' =>
        simp [hasShape, hasShapeList_iff] at h
        obtain ⟨hlen, hall⟩ := h
        have hchunks : chunksOf ((r :: rest').prod) cs.length (flattenList cs) =
            cs.map flatten :=
          chunksOf_flattenList _ cs (fun x hx => flatten_length _ x (hall x hx))
        rw [show flatten (Cube.node cs) = flattenList cs from rfl, renest, ← hlen, hchunks]
        congr 1
        rw [List.map_map]
        conv_rhs => rw [show cs = cs.map id from (List.map_id cs).symm]
        exact List.map_congr_left (fun x hx => ih x (hall x hx))

/-! ### Lemmas about ordered-dictionary update and the field enumerator -/

theorem odInsert_notMem {α : Type} (d : List (String × α)) (k : String) (v : α)
    (h : ∀ p ∈ d, p.1 ≠ k) : odInsert d k v = d ++ [(k, v)] := by
  have : d.any (fun p => p.1 == k) = false := by
    simp only [List.any_eq_false]
    intro p hp
    simpa using h p hp
  simp [odInsert, this]

theorem odUpdate_disjoint {α : Type} :
    ∀ (entries d : List (String × α)),
    (∀ p ∈ entries, ∀ q ∈ d, q.1 ≠ p.1) → (entries.map Prod.fst).Nodup →
    odUpdate d entries = d ++ entries := by
  intro entries
  induction entries with
  | nil => intro d _ _; simp [odUpdate]
  | cons e es ih =>
    intro d hdisj hnodup
    have h1 : odInsert d e.1 e.2 = d ++ [e] := by
      have := odInsert_notMem d e.1 e.2 (fun q hq => hdisj e (by simp) q hq)
      simpa using this
    have step : odUpdate d (e :: es) = odUpdate (odInsert d e.1 e.2) es := by
      simp [odUpdate]
    rw [step, h1]
    have hnd : (es.map Prod.fst).Nodup := (List.nodup_cons.mp (by simpa using hnodup)).2
    have hne : e.1 ∉ es.map Prod.fst := (List.nodup_cons.mp (by simpa using hnodup)).1
    rw [ih (d ++ [e]) ?_ hnd]
    · simp
    · intro p hp q hq
      rcases List.mem_append.mp hq with hq | hq
      · exact hdisj p (List.mem_cons_of_mem _ hp) q hq
      · have : q = e := by simpa using hq
        subst this
        intro hcontra
        exact hne (hcontra ▸ List.mem_map_of_mem Prod.fst hp)

theorem flatten_map_singleton {α β : Type} (l : List α) (f : α → β) :
    (l.map (fun x => [f x])).flatten = l.map f := by
  induction l with
  | nil => simp
  | cons x xs ih => simp [ih]

theorem sum_map_const {α : Type} (l : List α) (k : Nat) :
    (l.map (fun _ => k)).sum = l.length * k := by
  induction l with
  | nil => simp
  | cons a as ih => simp [ih]; ring

theorem cartesian_length : ∀ (L : List (List String)),
    (cartesian L).length = (L.map List.length).prod := by
  intro L
  induction L with
  | nil => simp [cartesian]
  | cons ls rest ih =>
    simp only [cartesian, List.length_flatten, List.map_map, List.map_cons, List.prod_cons]
    have h1 : ls.map (List.length ∘ fun l => (cartesian rest).map (fun t => l :: t)) =
        ls.map (fun _ => (rest.map List.length).prod) := by
      apply List.map_congr_left
      intro x _
      simp [Function.comp, ih]
    rw [h1, sum_map_const]

theorem cartesian_mem_length : ∀ (L : List (List String)) (t : List String),
    t ∈ cartesian L → t.length = L.length := by
  intro L
  induction L with
  | nil => intro t ht; simp [cartesian] at ht; simp [ht]
  | cons ls rest ih =>
    intro t ht
    simp [cartesian, List.mem_flatten] at ht
    obtain ⟨l, _, t', ht', rfl⟩ := ht
    simp [ih t' ht']

theorem cartesian_nodup : ∀ (L : List (List String)),
    (∀ ls ∈ L, ls.Nodup) → (cartesian L).Nodup := by
  intro L
  induction L with
  | nil => intro _; simp [cartesian]
  | cons ls rest ih =>
    intro h
    have hls : ls.Nodup := h ls (by simp)
    have hrest := ih (fun x hx => h x (List.mem_cons_of_mem _ hx))
    rw [cartesian, List.nodup_flatten]
    constructor
    · intro s hs
      simp only [List.mem_map] at hs
      obtain ⟨l, _, rfl⟩ := hs
      exact hrest.map (fun a b hab => by simpa using hab)
    · rw [List.pairwise_map]
      apply hls.imp ?_
      intro a b hab
      intro s hsa hsb
      simp only [List.mem_map] at hsa hsb
      obtain ⟨t1, _, rfl⟩ := hsa
      obtain ⟨t2, _, h2⟩ := hsb
      exact hab (by simpa using (List.cons_eq_cons.mp h2.symm).1)

theorem zip_right_injective : ∀ (names t1 t2 : List String),
    t1.length = names.length → t2.length = names.length →
    names.zip t1 = names.zip t2 → t1 = t2 := by
  intro names
  induction names with
  | nil =>
    intro t1 t2 h1 h2 _
    rw [List.length_eq_zero.mp h1, List.length_eq_zero.mp h2]
  | cons n ns ih =>
    intro t1 t2 h1 h2 heq
    cases t1 with
    | nil => simp at h1
    | cons a as =>
      cases t2 with
      | nil => simp at h2
      | cons b bs =>
        simp only [List.zip_cons_cons, List.cons_eq_cons, Prod.mk.injEq] at heq
        obtain ⟨⟨-, rfl⟩, htail⟩ := heq
        simp only [List.length_cons, Nat.add_right_cancel_iff] at h1 h2
        rw [ih as bs h1 h2 htail]

theorem field_looper_ok : ∀ (names : List String) (labels : List (List String)),
    names ≠ [] → names.length = labels.length → names.Nodup →
    field_looper names labels = ((cartesian labels).map (fun t => names.zip t), false) := by
  intro names
  induction names with
  | nil => intro labels hne _ _; exact absurd rfl hne
  | cons n ns ih =>
    intro labels _ hlen hnodup
    cases ns with
    | nil =>
      obtain ⟨ls, rfl⟩ : ∃ ls, labels = [ls] := by
        cases labels with
        | nil => simp at hlen
        | cons ls rest =>
          cases rest with
          | nil => exact ⟨ls, rfl⟩
          | cons _ _ => simp at hlen
      have hmap : ∀ ls' : List String,
          ((cartesian [ls']).map (fun t => [n].zip t)) = ls'.map (fun l => [(n, l)]) := by
        intro ls'
        induction ls' with
        | nil => simp [cartesian]
        | cons a as ih2 => simpa [cartesian] using ih2
      rw [hmap ls]
      simp [field_looper]
    | cons n2 ns' =>
      obtain ⟨ls, lss, rfl⟩ : ∃ ls lss, labels = ls :: lss := by
        cases labels with
        | nil => simp at hlen
        | cons ls lss => exact ⟨ls, lss, rfl⟩
      have hlen' : (n2 :: ns').length = lss.length := by simpa using hlen
      have hS : lss.length = ns'.length + 1 := by simpa using hlen'.symm
      have hnodup' : (n2 :: ns').Nodup := (List.nodup_cons.mp hnodup).2
      have hn : n ∉ n2 :: ns' := (List.nodup_cons.mp hnodup).1
      have hlow := ih lss (by simp) hlen' hnodup'
      have hcombo : ∀ l : String,
          ((cartesian lss).map (fun t => (n2 :: ns').zip t)).map
              (fun low => odUpdate [(n, l)] low) =
            (cartesian lss).map (fun t => (n :: n2 :: ns').zip (l :: t)) := by
        intro l
        rw [List.map_map]
        apply List.map_congr_left
        intro t ht
        have htlen : t.length = (n2 :: ns').length := by
          rw [cartesian_mem_length lss t ht, hlen']
        have hupd : odUpdate [(n, l)] ((n2 :: ns').zip t) =
            [(n, l)] ++ (n2 :: ns').zip t := by
          apply odUpdate_disjoint
          · intro p hp q hq
            have hq' : q = (n, l) := by simpa using hq
            subst hq'
            intro hcontra
            apply hn
            have hp1 := (List.of_mem_zip hp).1
            simpa [← hcontra] using hp1
          · rw [List.map_fst_zip _ _ (le_of_eq htlen.symm)]
            exact hnodup'
        simp [Function.comp, hupd, List.zip_cons_cons]
      cases ls with
      | nil => simp [field_looper, cartesian, hS]
      | cons l0 ls' =>
        have hrhs : (cartesian ((l0 :: ls') :: lss)).map (fun t => (n :: n2 :: ns').zip t) =
            ((l0 :: ls').map (fun l =>
              ((cartesian lss).map (fun t => (n2 :: ns').zip t)).map
                (fun low => odUpdate [(n, l)] low))).flatten := by
          rw [cartesian, List.map_flatten, List.map_map]
          congr 1
          apply List.map_congr_left
          intro l _
          rw [hcombo l]
          simp [Function.comp]
        rw [hrhs]
        simp [field_looper, hS, hlow]

/-! ### Lemmas about the record builder -/

theorem mapMO_eq_map {α β : Type} (l : List α) (g : α → Option β) (f : α → β)
    (h : ∀ x ∈ l, g x = some (f x)) : mapMO g l = some (l.map f) := by
  induction l with
  | nil => simp [mapMO]
  | cons x xs ih =>
    have hx := h x (by simp)
    have ih' := ih (fun y hy => h y (List.mem_cons_of_mem _ hy))
    simp [mapMO, hx, ih']

theorem fieldLabels_extract (r : Results)
    (h : ∀ f ∈ r.fields, ∀ it ∈ f.items, it.labels ≠ []) :
    mapMO (fun f => mapMO (fun it => it.labels.head?) f.items) r.fields =
      some (fieldLabelsI r) := by
  apply mapMO_eq_map
  intro f hf
  apply mapMO_eq_map
  intro it hit
  cases hl : it.labels with
  | nil => exact absurd hl (h f hf it hit)
  | cons a as => simp [hl]

theorem fieldLabelsI_lengths (r : Results) :
    (fieldLabelsI r).map List.length = dimsOf r := by
  simp [fieldLabelsI, dimsOf, List.map_map, Function.comp]

theorem dimsOf_pos (r : Results) (hpos : ∀ f ∈ r.fields, f.items ≠ []) :
    ∀ d ∈ dimsOf r, 0 < d := by
  intro d hd
  simp only [dimsOf, List.mem_map] at hd
  obtain ⟨f, hf, rfl⟩ := hd
  exact List.length_pos.mpr (hpos f hf)

theorem cubeOk_elim (cubes : List (String × Cube)) (dims : List Nat) (uri : String)
    (h : cubeOk cubes dims uri = true) :
    ∃ c, lookupCube cubes uri = some c ∧ hasShape c dims = true := by
  unfold cubeOk at h
  cases hl : lookupCube cubes uri with
  | none => rw [hl] at h; simp at h
  | some c => rw [hl] at h; exact ⟨c, rfl, h⟩

theorem measureData_eq (r : Results) (m : Measure)
    (hf : r.fields ≠ [])
    (hnodup : (fieldNames r).Nodup)
    (hpos : ∀ f ∈ r.fields, f.items ≠ [])
    (hm : m.label ∉ fieldNames r)
    (hcube : cubeOk r.cubes (dimsOf r) m.uri = true) :
    measureData (fieldNames r) (fieldLabelsI r) r.cubes m = some (measureRecordsSpec r m) := by
  obtain ⟨c, hc, hshape⟩ := cubeOk_elim _ _ _ hcube
  have hvl : value_looper c = (flatten c, false) :=
    value_looper_flatten _ c hshape (dimsOf_pos r hpos)
  have hfne : fieldNames r ≠ [] := by
    intro h
    exact hf (List.map_eq_nil_iff.mp h)
  have hleneq : (fieldNames r).length = (fieldLabelsI r).length := by
    simp [fieldNames, fieldLabelsI]
  have hfl := field_looper_ok (fieldNames r) (fieldLabelsI r) hfne hleneq hnodup
  have hclen : ((cartesian (fieldLabelsI r)).map (fun t => (fieldNames r).zip t)).length
      = (dimsOf r).prod := by
    rw [List.length_map, cartesian_length, fieldLabelsI_lengths]
  have hvlen : (flatten c).length = (dimsOf r).prod := flatten_length _ _ hshape
  have hzip : zipStream (field_looper (fieldNames r) (fieldLabelsI r)) (value_looper c) =
      some (((cartesian (fieldLabelsI r)).map (fun t => (fieldNames r).zip t)).zip
        (flatten c)) := by
    rw [hfl, hvl]
    unfold zipStream
    simp [hclen, hvlen]
  unfold measureData
  simp only [hc]
  simp only [hzip]
  simp only [measureRecordsSpec, hc]
  congr 1
  rw [List.zip_map_left, List.map_map]
  apply List.map_congr_left
  intro p hp
  obtain ⟨t, v⟩ := p
  have ht : t ∈ cartesian (fieldLabelsI r) := (List.of_mem_zip hp).1
  simp only [Function.comp, Prod.map, id]
  apply odUpdate_disjoint
  · intro q hq e he
    have hq' : q = (m.label, Cell.v v) := by simpa using hq
    subst hq'
    simp only [List.mem_map] at he
    obtain ⟨z, hz, rfl⟩ := he
    intro hcontra
    simp only at hcontra
    apply hm
    have := (List.of_mem_zip hz).1
    simpa [hcontra] using this
  · simp

theorem measureRecordsSpec_length (r : Results) (m : Measure)
    (hcube : cubeOk r.cubes (dimsOf r) m.uri = true) :
    (measureRecordsSpec r m).length = (dimsOf r).prod := by
  obtain ⟨c, hc, hshape⟩ := cubeOk_elim _ _ _ hcube
  unfold measureRecordsSpec
  rw [hc]
  simp only [List.length_map, List.length_zip]
  rw [cartesian_length, fieldLabelsI_lengths, flatten_length _ _ hshape]
  exact Nat.min_self _

theorem build_data_eq (r : Results)
    (hf : r.fields ≠ [])
    (hnodup : (fieldNames r).Nodup)
    (hlabels : ∀ f ∈ r.fields, ∀ it ∈ f.items, it.labels ≠ [])
    (hpos : ∀ f ∈ r.fields, f.items ≠ [])
    (hm : ∀ m ∈ r.measures, m.label ∉ fieldNames r)
    (hcubes : ∀ m ∈ r.measures, cubeOk r.cubes (dimsOf r) m.uri = true) :
    build_data r = some ((r.measures.map (measureRecordsSpec r)).flatten) := by
  unfold build_data
  simp only [fieldLabels_extract r hlabels]
  simp only [mapMO_eq_map r.measures _ (measureRecordsSpec r)
    (fun m hm' => measureData_eq r m hf hnodup hpos (hm m hm') (hcubes m hm'))]

/-! ### Claim theorems -/

/-- C1: for every response whose fields and per-measure cubes agree in
shape (non-empty field list with distinct field names, non-empty labelled
item lists, measure labels distinct from field names, and each measure's
cube present with the fields' dimensions), the flat record set pairs the
i-th Cartesian combination of item labels (field 0 slowest-varying, last
field fastest-varying) with the i-th value of the depth-first flattening of
the measure's cube, producing exactly `∏ item counts` records per measure,
with the records of all measures concatenated in declared measure order. -/
theorem record_builder_row_major (r : Results)
    (hf : r.fields ≠ [])
    (hnodup : (fieldNames r).Nodup)
    (hlabels : ∀ f ∈ r.fields, ∀ it ∈ f.items, it.labels ≠ [])
    (hpos : ∀ f ∈ r.fields, f.items ≠ [])
    (hm : ∀ m ∈ r.measures, m.label ∉ fieldNames r)
    (hcubes : ∀ m ∈ r.measures, cubeOk r.cubes (dimsOf r) m.uri = true) :
    build_data r = some ((r.measures.map (measureRecordsSpec r)).flatten) ∧
    ∀ m ∈ r.measures, (measureRecordsSpec r m).length = (dimsOf r).prod :=
  ⟨build_data_eq r hf hnodup hlabels hpos hm hcubes,
   fun m hm' => measureRecordsSpec_length r m (hcubes m hm')⟩

/-- Witness for C1 at the spec's test response: the record builder yields
exactly the four records (A=a1,B=b1,M=10), (A=a1,B=b2,M=20),
(A=a2,B=b1,M=30), (A=a2,B=b2,M=40) in that order. -/
theorem record_builder_row_major_witness :
    build_data c1ex = some ((c1ex.measures.map (measureRecordsSpec c1ex)).flatten) ∧
    ∀ m ∈ c1ex.measures, (measureRecordsSpec c1ex m).length = (dimsOf c1ex).prod :=
  record_builder_row_major c1ex (by decide) (by decide) (by decide) (by decide)
    (by decide) (by decide)

/-- C2 (evidence of the divergence): on a response whose combination count
(two) differs from the cube's scalar count (one), the record builder does
not raise; it produces a record set silently truncated to the shorter
sequence. -/
theorem record_builder_truncates :
    build_data c2ex = some [[("A", Cell.s "a1"), ("M", Cell.v 10)]] := by decide

/-- C3: for every non-empty list of distinct field names and parallel list
of non-empty item-label lists, the field enumerator yields exactly the
row-major Cartesian product of the label lists — `∏ nᵢ` ordered mappings
listing the fields in the given order, the first field cycling slowest —
and the mappings are pairwise distinct when item labels are distinct within
each field. -/
theorem field_enumerator_product (names : List String) (labels : List (List String))
    (h1 : names ≠ []) (h2 : names.length = labels.length) (h3 : names.Nodup)
    (h4 : ∀ ls ∈ labels, ls ≠ []) :
    field_looper names labels = ((cartesian labels).map (fun t => names.zip t), false) ∧
    (field_looper names labels).1.length = (labels.map List.length).prod ∧
    ((∀ ls ∈ labels, ls.Nodup) → (field_looper names labels).1.Nodup) := by
  have heq := field_looper_ok names labels h1 h2 h3
  refine ⟨heq, ?_, ?_⟩
  · rw [heq]
    simp [cartesian_length]
  · intro hnd
    rw [heq]
    simp only
    apply List.Nodup.map_on
    · intro t1 ht1 t2 ht2 hz
      exact zip_right_injective names t1 t2
        (by rw [cartesian_mem_length labels t1 ht1, h2])
        (by rw [cartesian_mem_length labels t2 ht2, h2]) hz
    · exact cartesian_nodup labels hnd

/-- Witness for C3 at `names = [A, B]`, `labels = [[a1, a2], [b1, b2]]`. -/
theorem field_enumerator_product_witness :
    field_looper ["A", "B"] [["a1", "a2"], ["b1", "b2"]] =
      ((cartesian [["a1", "a2"], ["b1", "b2"]]).map
        (fun t => ["A", "B"].zip t), false) ∧
    (field_looper ["A", "B"] [["a1", "a2"], ["b1", "b2"]]).1.length =
      ([["a1", "a2"], ["b1", "b2"]].map List.length).prod ∧
    ((∀ ls ∈ [["a1", "a2"], ["b1", "b2"]], ls.Nodup) →
      (field_looper ["A", "B"] [["a1", "a2"], ["b1", "b2"]]).1.Nodup) :=
  field_enumerator_product ["A", "B"] [["a1", "a2"], ["b1", "b2"]]
    (by decide) (by decide) (by decide) (by decide)

/-- C4: for every nested numeric array of uniform positive shape whose
depth-first leaves are the integers `0 .. ∏nᵢ - 1` in row-major position,
the value flattener yields exactly the sequence `0, 1, ..., ∏nᵢ - 1` in
order, without raising. -/
theorem value_flattener_row_major (c : Cube) (dims : List Nat)
    (h1 : hasShape c dims = true) (h2 : ∀ d ∈ dims, 0 < d)
    (h3 : flatten c = (List.range dims.prod).map (fun i => (i : Int))) :
    value_looper c = ((List.range dims.prod).map (fun i => (i : Int)), false) := by
  rw [value_looper_flatten dims c h1 h2, h3]

/-- Witness for C4 at the 2×2 cube `[[0, 1], [2, 3]]`. -/
theorem value_flattener_row_major_witness :
    value_looper (Cube.node [Cube.leaf [0, 1], Cube.leaf [2, 3]]) =
      ((List.range ([2, 2] : List Nat).prod).map (fun i => (i : Int)), false) :=
  value_flattener_row_major (Cube.node [Cube.leaf [0, 1], Cube.leaf [2, 3]]) [2, 2]
    (by decide) (by decide) (by decide)

/-- C8: for every cube of uniform known positive shape, flattening it with
the value flattener (which succeeds) and then re-nesting the resulting
scalar sequence by that same shape reproduces the original cube exactly. -/
theorem flatten_renest_roundtrip (c : Cube) (dims : List Nat)
    (h1 : hasShape c dims = true) (h2 : ∀ d ∈ dims, 0 < d) :
    value_looper c = (flatten c, false) ∧ renest dims (value_looper c).1 = c := by
  have hv := value_looper_flatten dims c h1 h2
  exact ⟨hv, by rw [hv]; exact renest_flatten dims c h1⟩

/-- Witness for C8 at the 2×2 cube `[[10, 20], [30, 40]]`. -/
theorem flatten_renest_roundtrip_witness :
    value_looper (Cube.node [Cube.leaf [10, 20], Cube.leaf [30, 40]]) =
      (flatten (Cube.node [Cube.leaf [10, 20], Cube.leaf [30, 40]]), false) ∧
    renest [2, 2] (value_looper (Cube.node [Cube.leaf [10, 20], Cube.leaf [30, 40]])).1 =
      Cube.node [Cube.leaf [10, 20], Cube.leaf [30, 40]] :=
  flatten_renest_roundtrip (Cube.node [Cube.leaf [10, 20], Cube.leaf [30, 40]]) [2, 2]
    (by decide) (by decide)

/-- C9: the value flattener inspects element 0 of every array it traverses,
so on a uniformly shaped cube one of whose dimensions is zero (that is, a
cube containing empty sub-arrays) it raises having yielded nothing, rather
than producing an empty or partial sequence; when every dimension is
positive — every nested array non-empty — that failure is unreachable and
the traversal finishes without raising. -/
theorem value_flattener_empty_guard (c : Cube) (dims : List Nat)
    (h : hasShape c dims = true) :
    (0 ∈ dims → value_looper c = ([], true)) ∧
    ((∀ d ∈ dims, 0 < d) → (value_looper c).2 = false) :=
  ⟨fun hz => value_looper_zero dims c h hz,
   fun hp => by rw [value_looper_flatten dims c h hp]⟩

/-- Witness for C9: a 2×0 cube (two empty sub-arrays) makes the flattener
raise with nothing yielded, and a fully positive 2×2 cube streams without
raising. -/
theorem value_flattener_empty_guard_witness :
    value_looper (Cube.node [Cube.leaf [], Cube.leaf []]) = ([], true) ∧
    (value_looper (Cube.node [Cube.leaf [5, 6], Cube.leaf [7, 8]])).2 = false :=
  ⟨(value_flattener_empty_guard (Cube.node [Cube.leaf [], Cube.leaf []]) [2, 0]
      (by decide)).1 (by decide),
   (value_flattener_empty_guard (Cube.node [Cube.leaf [5, 6], Cube.leaf [7, 8]]) [2, 2]
      (by decide)).2 (by decide)⟩

/-- Row-major product over a single list degenerates to one singleton tuple
per label. -/
theorem cartesian_singleton (ls : List String) :
    cartesian [ls] = ls.map (fun l => [l]) := by
  induction ls with
  | nil => simp [cartesian]
  | cons a as ih => simpa [cartesian] using ih

/-- C7: for every response with exactly one field (well-formed: labelled
non-empty items, measure labels distinct from the field's, cube of the
field's length per measure), the reshaped output is the flat record set
re-keyed by that field's label: the field's item labels become the row
index in source order, each measure contributing its column of values, with
no pivoting. -/
theorem single_field_reshape (r : Results) (f : Field)
    (hf : r.fields = [f])
    (hlabels : ∀ it ∈ f.items, it.labels ≠ [])
    (hpos : f.items ≠ [])
    (hm : ∀ m ∈ r.measures, m.label ≠ f.label)
    (hcubes : ∀ m ∈ r.measures, cubeOk r.cubes [f.items.length] m.uri = true) :
    build_data r = some ((r.measures.map (measureRecordsSpec r)).flatten) ∧
    set_index ((r.measures.map (measureRecordsSpec r)).flatten) f.label =
      ⟨f.label,
       (r.measures.map (fun m =>
          match lookupCube r.cubes m.uri with
          | some c =>
            ((f.items.map (fun it => it.labels.headI)).zip (flatten c)).map
              (fun p => (some (Cell.s p.1), [(m.label, Cell.v p.2)]))
          | none => [])).flatten⟩ := by
  have hnames : fieldNames r = [f.label] := by simp [fieldNames, hf]
  have hls : fieldLabelsI r = [f.items.map (fun it => it.labels.headI)] := by
    simp [fieldLabelsI, hf]
  have hdims : dimsOf r = [f.items.length] := by simp [dimsOf, hf]
  constructor
  · apply build_data_eq r
    · rw [hf]; simp
    · rw [hnames]; simp
    · intro f' hf'
      rw [hf] at hf'
      simp at hf'
      subst hf'
      exact hlabels
    · intro f' hf'
      rw [hf] at hf'
      simp at hf'
      subst hf'
      exact hpos
    · intro m hm'
      rw [hnames]
      simp [hm m hm']
    · intro m hm'
      rw [hdims]
      exact hcubes m hm'
  · unfold set_index
    congr 1
    rw [List.map_flatten, List.map_map]
    congr 1
    apply List.map_congr_left
    intro m hmem
    simp only [Function.comp]
    unfold measureRecordsSpec
    cases hc : lookupCube r.cubes m.uri with
    | none => simp
    | some c =>
      simp only
      rw [hls, hnames, cartesian_singleton, List.zip_map_left, List.map_map, List.map_map]
      apply List.map_congr_left
      intro p _
      obtain ⟨l, v⟩ := p
      have hmf : (m.label == f.label) = false := by
        simp only [beq_eq_false_iff_ne, ne_eq]
        exact hm m hmem
      simp [odLookup, Function.comp, Prod.map, List.find?, List.filter, bne, hmf]

/-- Witness for C7 at the spec's example: one field `A` with items
`[x, y]` and measure `M` values `[1, 2]` reshapes to the table indexed by
`A` with rows x→1 and y→2. -/
theorem single_field_reshape_witness :
    build_data c7ex = some ((c7ex.measures.map (measureRecordsSpec c7ex)).flatten) ∧
    set_index ((c7ex.measures.map (measureRecordsSpec c7ex)).flatten) c7field.label =
      ⟨c7field.label,
       (c7ex.measures.map (fun m =>
          match lookupCube c7ex.cubes m.uri with
          | some c =>
            ((c7field.items.map (fun it => it.labels.headI)).zip (flatten c)).map
              (fun p => (some (Cell.s p.1), [(m.label, Cell.v p.2)]))
          | none => [])).flatten⟩ :=
  single_field_reshape c7ex c7field (by decide) (by decide) (by decide)
    (by decide) (by decide)

/-! ### Lemmas about the code scan -/

theorem itemStep_ok (fl : String) (fc : FCodes) (it : Item) (h : itemOk it = true) :
    itemStep fl fc it = some (match itemEntry it with
      | some e => fcInsert fc fl e.1 e.2
      | none => fc) := by
  unfold itemOk at h
  cases hu : it.uris with
  | none => simp [itemStep, itemEntry, specCode, hu]
  | some us =>
    rw [hu] at h
    simp only [Bool.and_eq_true] at h
    obtain ⟨hlab, hrest⟩ := h
    cases us with
    | nil => simp at hrest
    | cons u us' =>
      have hrest' : (code_of_uri u).isSome = true := by simpa using hrest
      cases hc : code_of_uri u with
      | none => rw [hc] at hrest'; simp at hrest'
      | some code =>
        cases hl : it.labels with
        | nil => rw [hl] at hlab; simp at hlab
        | cons l0 ls =>
          by_cases hshape : (code.length == 9 && firstAlpha code) = true
          · simp [itemStep, itemEntry, specCode, hu, hc, hl, hshape]
          · rw [Bool.not_eq_true] at hshape
            simp [itemStep, itemEntry, specCode, hu, hc, hl, hshape]

theorem foldMO_items (fl : String) (items : List Item)
    (h : ∀ it ∈ items, itemOk it = true) :
    ∀ fc : FCodes, foldMO (itemStep fl) fc items =
      some (applyEntries fl fc (items.filterMap itemEntry)) := by
  induction items with
  | nil => intro fc; simp [foldMO, applyEntries]
  | cons it its ih =>
    intro fc
    have hstep := itemStep_ok fl fc it (h it (by simp))
    cases he : itemEntry it with
    | none =>
      rw [he] at hstep
      simp only [foldMO, hstep]
      rw [ih (fun x hx => h x (List.mem_cons_of_mem _ hx)) fc]
      simp [List.filterMap_cons, he]
    | some e =>
      rw [he] at hstep
      simp only [foldMO, hstep]
      rw [ih (fun x hx => h x (List.mem_cons_of_mem _ hx)) (fcInsert fc fl e.1 e.2)]
      simp [List.filterMap_cons, he, applyEntries]

theorem fcInsert_notMem (fc : FCodes) (fl il code : String)
    (h : ∀ e ∈ fc, e.1 ≠ fl) :
    fcInsert fc fl il code = fc ++ [(fl, [(il, code)])] := by
  have hany : fc.any (fun e => e.1 == fl) = false := by
    simp only [List.any_eq_false]
    intro e he
    simpa using h e he
  simp [fcInsert, hany]

theorem applyEntries_last (fl : String) :
    ∀ (es : List (String × String)) (fc1 : FCodes) (inner : List (String × String)),
    (∀ e ∈ fc1, e.1 ≠ fl) →
    applyEntries fl (fc1 ++ [(fl, inner)]) es = fc1 ++ [(fl, odUpdate inner es)] := by
  intro es
  induction es with
  | nil => intro fc1 inner _; simp [applyEntries, odUpdate]
  | cons e es' ih =>
    intro fc1 inner hfresh
    have hins : fcInsert (fc1 ++ [(fl, inner)]) fl e.1 e.2 =
        fc1 ++ [(fl, odInsert inner e.1 e.2)] := by
      have hany : (fc1 ++ [(fl, inner)]).any (fun x => x.1 == fl) = true := by
        simp [List.any_append]
      simp only [fcInsert, hany, if_true]
      rw [List.map_append]
      congr 1
      · conv_rhs => rw [show fc1 = fc1.map id from (List.map_id fc1).symm]
        apply List.map_congr_left
        intro x hx
        have : (x.1 == fl) = false := by simpa using hfresh x hx
        simp [this]
      · simp
    have hfold : applyEntries fl (fc1 ++ [(fl, inner)]) (e :: es') =
        applyEntries fl (fcInsert (fc1 ++ [(fl, inner)]) fl e.1 e.2) es' := by
      simp [applyEntries]
    rw [hfold, hins, ih fc1 (odInsert inner e.1 e.2) hfresh]
    have : odUpdate inner (e :: es') = odUpdate (odInsert inner e.1 e.2) es' := by
      simp [odUpdate]
    rw [this]

theorem applyEntries_fresh (fl : String) (entries : List (String × String)) (fc : FCodes)
    (hfresh : ∀ e ∈ fc, e.1 ≠ fl) (hnd : (entries.map Prod.fst).Nodup) :
    applyEntries fl fc entries =
      if entries.isEmpty then fc else fc ++ [(fl, entries)] := by
  cases entries with
  | nil => simp [applyEntries]
  | cons e es =>
    simp only [List.isEmpty_cons, Bool.false_eq_true, if_false]
    have h1 : fcInsert fc fl e.1 e.2 = fc ++ [(fl, [e])] :=
      fcInsert_notMem fc fl e.1 e.2 hfresh
    have h2 : applyEntries fl fc (e :: es) = applyEntries fl (fc ++ [(fl, [e])]) es := by
      simp [applyEntries, h1]
    rw [h2, applyEntries_last fl es fc [e] hfresh]
    have he1 : e.1 ∉ es.map Prod.fst := (List.nodup_cons.mp (by simpa using hnd)).1
    have hnd' : (es.map Prod.fst).Nodup := (List.nodup_cons.mp (by simpa using hnd)).2
    have hupd : odUpdate [e] es = [e] ++ es := by
      apply odUpdate_disjoint
      · intro p hp q hq
        have hq' : q = e := by simpa using hq
        subst hq'
        intro hcontra
        have hmem : p.1 ∈ es.map Prod.fst := List.mem_map_of_mem Prod.fst hp
        rw [← hcontra] at hmem
        exact he1 hmem
      · exact hnd'
    rw [hupd]
    simp

theorem foldMO_fields : ∀ (fields : List Field) (fc0 : FCodes),
    (∀ f ∈ fields, ∀ it ∈ f.items, itemOk it = true) →
    (∀ f ∈ fields, ∀ e ∈ fc0, e.1 ≠ f.label) →
    (fields.map (fun f => f.label)).Nodup →
    (∀ f ∈ fields, ((f.items.filterMap itemEntry).map Prod.fst).Nodup) →
    foldMO (fun fc f => foldMO (itemStep f.label) fc f.items) fc0 fields =
      some (fc0 ++ fcSpec fields) := by
  intro fields
  induction fields with
  | nil => intro fc0 _ _ _ _; simp [foldMO, fcSpec]
  | cons f fs ih =>
    intro fc0 hok hfresh hnd hkeys
    have hstep : foldMO (itemStep f.label) fc0 f.items =
        some (applyEntries f.label fc0 (f.items.filterMap itemEntry)) :=
      foldMO_items f.label f.items (hok f (by simp)) fc0
    have happ := applyEntries_fresh f.label (f.items.filterMap itemEntry) fc0
      (fun e he => hfresh f (by simp) e he) (hkeys f (by simp))
    have hok' : ∀ f' ∈ fs, ∀ it ∈ f'.items, itemOk it = true :=
      fun f' hf' => hok f' (List.mem_cons_of_mem _ hf')
    have hnd' : (fs.map (fun f' => f'.label)).Nodup :=
      (List.nodup_cons.mp (by simpa using hnd)).2
    have hflabel : f.label ∉ fs.map (fun f' => f'.label) :=
      (List.nodup_cons.mp (by simpa using hnd)).1
    have hkeys' : ∀ f' ∈ fs, ((f'.items.filterMap itemEntry).map Prod.fst).Nodup :=
      fun f' hf' => hkeys f' (List.mem_cons_of_mem _ hf')
    simp only [foldMO, hstep]
    by_cases hE : (f.items.filterMap itemEntry).isEmpty = true
    · rw [happ]
      simp only [hE, if_true]
      rw [ih fc0 hok' (fun f' hf' e he => hfresh f' (List.mem_cons_of_mem _ hf') e he)
        hnd' hkeys']
      have : fcSpec (f :: fs) = fcSpec fs := by
        simp [fcSpec, List.filter_cons, hE]
      rw [this]
    · rw [happ]
      rw [Bool.not_eq_true] at hE
      simp only [hE, Bool.false_eq_true, if_false]
      rw [ih (fc0 ++ [(f.label, f.items.filterMap itemEntry)]) hok' ?_ hnd' hkeys']
      · have : fcSpec (f :: fs) = (f.label, f.items.filterMap itemEntry) :: fcSpec fs := by
          simp [fcSpec, List.filter_cons, hE]
        rw [this]
        simp
      · intro f' hf' e he
        rcases List.mem_append.mp he with he' | he'
        · exact hfresh f' (List.mem_cons_of_mem _ hf') e he'
        · have : e = (f.label, f.items.filterMap itemEntry) := by simpa using he'
          subst this
          intro hcontra
          simp only at hcontra
          apply hflabel
          rw [hcontra]
          exact List.mem_map_of_mem _ hf'

theorem field_codes_spec (fields : List Field)
    (hok : ∀ f ∈ fields, ∀ it ∈ f.items, itemOk it = true)
    (hnd : (fields.map (fun f => f.label)).Nodup)
    (hkeys : ∀ f ∈ fields, ((f.items.filterMap itemEntry).map Prod.fst).Nodup) :
    field_codes fields = some (fcSpec fields) := by
  unfold field_codes
  rw [foldMO_fields fields [] hok (by simp) hnd hkeys]
  simp

theorem entryKeys_sublist (items : List Item) :
    ((items.filterMap itemEntry).map Prod.fst).Sublist
      (items.map (fun it => it.labels.headI)) := by
  induction items with
  | nil => simp
  | cons it its ih =>
    cases he : itemEntry it with
    | none =>
      simp only [List.filterMap_cons, he, List.map_cons]
      exact ih.cons _
    | some e =>
      have he1 : e.1 = it.labels.headI := by
        unfold itemEntry at he
        cases hs : specCode it with
        | none => rw [hs] at he; simp at he
        | some c =>
          rw [hs] at he
          have he2 : (it.labels.headI, c) = e := by simpa using he
          rw [← he2]
      simp only [List.filterMap_cons, he, List.map_cons, he1]
      exact ih.cons₂ _

theorem fcSpec_keys (fields : List Field) :
    ∀ e ∈ fcSpec fields, e.1 ∈ fields.map (fun f => f.label) := by
  intro e he
  unfold fcSpec at he
  have hmem := List.mem_of_mem_filter he
  simp only [List.mem_map] at hmem
  obtain ⟨f, hf, rfl⟩ := hmem
  exact List.mem_map_of_mem _ hf

theorem find?_keyed_nodup {β : Type} :
    ∀ (entries : List (String × β)) (k : String) (v : β),
    (entries.map Prod.fst).Nodup → (k, v) ∈ entries →
    entries.find? (fun q => q.1 == k) = some (k, v) := by
  intro entries
  induction entries with
  | nil => intro k v _ h; simp at h
  | cons e rest ih =>
    intro k v hnd hmem
    have hhead : e.1 ∉ rest.map Prod.fst := (List.nodup_cons.mp (by simpa using hnd)).1
    have hnd' : (rest.map Prod.fst).Nodup := (List.nodup_cons.mp (by simpa using hnd)).2
    by_cases hk : e.1 = k
    · have hev : e = (k, v) := by
        rcases List.mem_cons.mp hmem with h | h
        · exact h.symm
        · exfalso
          apply hhead
          rw [hk]
          exact List.mem_map_of_mem Prod.fst h
      rw [hev]
      rw [List.find?_cons_of_pos _ (by simp)]
    · have hmem' : (k, v) ∈ rest := by
        rcases List.mem_cons.mp hmem with h | h
        · exfalso
          apply hk
          rw [← h]
        · exact h
      rw [List.find?_cons_of_neg _ (by simp [hk])]
      exact ih k v hnd' hmem'

theorem specCode_of_entry (items : List Item) (it : Item) (hit : it ∈ items)
    (hil : (items.map (fun x => x.labels.headI)).Nodup) (q : String × String)
    (hq : q ∈ items.filterMap itemEntry) (hqk : q.1 = it.labels.headI) :
    itemEntry it = some q := by
  rw [List.mem_filterMap] at hq
  obtain ⟨it', hit', he'⟩ := hq
  have hk : it'.labels.headI = it.labels.headI := by
    unfold itemEntry at he'
    cases hs : specCode it' with
    | none => rw [hs] at he'; simp at he'
    | some c =>
      rw [hs] at he'
      have he2 : (it'.labels.headI, c) = q := by simpa using he'
      rw [← he2] at hqk
      simpa using hqk
  have heq : it' = it := List.inj_on_of_nodup_map hil hit' hit hk
  rw [← heq]
  exact he'

theorem find?_fcSpec (fields : List Field) (f : Field)
    (hf : f ∈ fields) (hnd : (fields.map (fun f' => f'.label)).Nodup) :
    (fcSpec fields).find? (fun e => e.1 == f.label) =
      if (f.items.filterMap itemEntry).isEmpty = true then none
      else some (f.label, f.items.filterMap itemEntry) := by
  induction fields with
  | nil => simp at hf
  | cons f0 fs ih =>
    have hnd' : (fs.map (fun f' => f'.label)).Nodup :=
      (List.nodup_cons.mp (by simpa using hnd)).2
    have hhead : f0.label ∉ fs.map (fun f' => f'.label) :=
      (List.nodup_cons.mp (by simpa using hnd)).1
    rcases List.mem_cons.mp hf with rfl | hf'
    · by_cases hE : (f.items.filterMap itemEntry).isEmpty = true
      · have hspec : fcSpec (f :: fs) = fcSpec fs := by
          simp [fcSpec, List.filter_cons, hE]
        rw [hspec, hE, if_pos rfl]
        rw [List.find?_eq_none]
        intro e he
        simp only [beq_iff_eq]
        intro hbeq
        apply hhead
        rw [← hbeq]
        exact fcSpec_keys fs e he
      · have hE' : (f.items.filterMap itemEntry).isEmpty = false := by
          simpa using hE
        have hspec : fcSpec (f :: fs) =
            (f.label, f.items.filterMap itemEntry) :: fcSpec fs := by
          simp [fcSpec, List.filter_cons, hE']
        rw [hspec, List.find?_cons_of_pos _ (by simp), hE']
        simp
    · have hne : f0.label ≠ f.label := by
        intro h
        apply hhead
        rw [h]
        exact List.mem_map_of_mem _ hf'
      by_cases hE0 : (f0.items.filterMap itemEntry).isEmpty = true
      · have hspec : fcSpec (f0 :: fs) = fcSpec fs := by
          simp [fcSpec, List.filter_cons, hE0]
        rw [hspec]
        exact ih hf' hnd'
      · have hE0' : (f0.items.filterMap itemEntry).isEmpty = false := by
          simpa using hE0
        have hspec : fcSpec (f0 :: fs) =
            (f0.label, f0.items.filterMap itemEntry) :: fcSpec fs := by
          simp [fcSpec, List.filter_cons, hE0']
        rw [hspec, List.find?_cons_of_neg _ (by simp [hne])]
        exact ih hf' hnd'

theorem afterLastColon_none (cs : List Char) (h : (':' : Char) ∉ cs) :
    afterLastColon cs = none := by
  induction cs with
  | nil => rfl
  | cons c rest ih =>
    have hc : c ≠ ':' := by
      intro e
      exact h (by simp [e])
    have hrest : (':' : Char) ∉ rest := fun e => h (List.mem_cons_of_mem _ e)
    simp [afterLastColon, ih hrest, hc]

theorem foldMO_none {σ α : Type} (g : σ → α → Option σ) (bad : α)
    (hbad : ∀ s, g s bad = none) :
    ∀ (l : List α) (s : σ), bad ∈ l → foldMO g s l = none := by
  intro l
  induction l with
  | nil => intro s h; simp at h
  | cons x xs ih =>
    intro s hmem
    rcases List.mem_cons.mp hmem with rfl | hmem'
    · simp [foldMO, hbad s]
    · cases hg : g s x with
      | none => simp [foldMO, hg]
      | some s' =>
        simp only [foldMO, hg]
        exact ih s' hmem'

theorem foldMO_isSome {σ α : Type} (g : σ → α → Option σ) :
    ∀ (l : List α) (s : σ), (∀ x ∈ l, ∀ s', (g s' x).isSome = true) →
    (foldMO g s l).isSome = true := by
  intro l
  induction l with
  | nil => intro s _; simp [foldMO]
  | cons x xs ih =>
    intro s h
    cases hg : g s x with
    | none =>
      have := h x (by simp) s
      rw [hg] at this
      simp at this
    | some s' =>
      simp only [foldMO, hg]
      exact ih s' (fun y hy s'' => h y (List.mem_cons_of_mem _ hy) s'')

theorem itemStep_isSome (fl : String) (it : Item) (h : itemOk it = true) :
    ∀ fc, (itemStep fl fc it).isSome = true := by
  intro fc
  rw [itemStep_ok fl fc it h]
  rfl

theorem itemStep_colon_none (fl : String) (it : Item) (u : String) (us : List String)
    (hu : it.uris = some (u :: us)) (hcolon : (':' : Char) ∉ u.data) :
    ∀ fc, itemStep fl fc it = none := by
  intro fc
  have hc : code_of_uri u = none := by
    unfold code_of_uri
    rw [afterLastColon_none u.data hcolon]
    rfl
  simp [itemStep, hu, hc]

/-- C6: for every field and every item in it (in a well-formed response:
distinct field labels, items with distinct non-empty label lists, every uri
present non-empty with a colon in its first entry), the code scan succeeds
and the resulting lookup maps the item's label, under its field's label, to
the substring after the final colon of the item's first uri if and only if
the item carries a uri and that substring has length exactly 9 and begins
with an alphabetic character; items lacking a uri or failing the shape test
contribute no entry. -/
theorem code_lookup_characterization (fields : List Field)
    (hok : ∀ f ∈ fields, ∀ it ∈ f.items, itemOk it = true)
    (hnd : (fields.map (fun f => f.label)).Nodup)
    (hil : ∀ f ∈ fields, (f.items.map (fun x => x.labels.headI)).Nodup) :
    field_codes fields = some (fcSpec fields) ∧
    ∀ f ∈ fields, ∀ it ∈ f.items, ∀ c : String,
      (lookupCode (fcSpec fields) f.label it.labels.headI = some c ↔
        specCode it = some c) := by
  have hkeys : ∀ f ∈ fields, ((f.items.filterMap itemEntry).map Prod.fst).Nodup :=
    fun f hf => (hil f hf).sublist (entryKeys_sublist f.items)
  refine ⟨field_codes_spec fields hok hnd hkeys, ?_⟩
  intro f hf it hit c
  unfold lookupCode
  rw [find?_fcSpec fields f hf hnd]
  by_cases hE : (f.items.filterMap itemEntry).isEmpty = true
  · rw [if_pos hE]
    simp only [Option.map_none', Option.none_bind]
    constructor
    · intro h
      simp at h
    · intro hs
      exfalso
      have hentry : itemEntry it = some (it.labels.headI, c) := by
        simp [itemEntry, hs]
      have hmem : (it.labels.headI, c) ∈ f.items.filterMap itemEntry :=
        List.mem_filterMap.mpr ⟨it, hit, hentry⟩
      rw [List.isEmpty_iff] at hE
      rw [hE] at hmem
      simp at hmem
  · rw [if_neg hE]
    simp only [Option.map_some', Option.some_bind]
    constructor
    · intro h
      cases hfind : (f.items.filterMap itemEntry).find?
          (fun p => p.1 == it.labels.headI) with
      | none => rw [hfind] at h; simp at h
      | some q =>
        rw [hfind] at h
        have hc : q.2 = c := by simpa using h
        have hqmem := List.mem_of_find?_eq_some hfind
        have hqk : q.1 = it.labels.headI := by
          have := List.find?_some hfind
          simpa using this
        have hq := specCode_of_entry f.items it hit (hil f hf) q hqmem hqk
        unfold itemEntry at hq
        cases hs : specCode it with
        | none => rw [hs] at hq; simp at hq
        | some c' =>
          rw [hs] at hq
          have hq2 : (it.labels.headI, c') = q := by simpa using hq
          rw [← hc, ← hq2]
    · intro hs
      have hentry : itemEntry it = some (it.labels.headI, c) := by
        simp [itemEntry, hs]
      have hmem : (it.labels.headI, c) ∈ f.items.filterMap itemEntry :=
        List.mem_filterMap.mpr ⟨it, hit, hentry⟩
      rw [find?_keyed_nodup _ _ _ (hkeys f hf) hmem]
      simp

/-- Witness for C6 at a field holding a coded item (uri ending in
`:E12000001`), a shape-failing item (uri ending in `:AB1`) and an item with
no uri. -/
theorem code_lookup_characterization_witness :
    field_codes c6fields = some (fcSpec c6fields) ∧
    ∀ f ∈ c6fields, ∀ it ∈ f.items, ∀ c : String,
      (lookupCode (fcSpec c6fields) f.label it.labels.headI = some c ↔
        specCode it = some c) :=
  code_lookup_characterization c6fields (by decide) (by decide) (by decide)

/-- C10: an item carrying a uri with no colon makes the code scan raise
(the rsplit after the final colon has no second part) rather than being
skipped, whatever else the response holds; and when every uri present is
non-empty and contains a colon (and items are labelled), that failure is
unreachable and the scan returns a lookup. -/
theorem code_extraction_colon_guard (fields : List Field) :
    ((∃ f ∈ fields, ∃ it ∈ f.items, ∃ u us, it.uris = some (u :: us) ∧
        (':' : Char) ∉ u.data) →
      field_codes fields = none) ∧
    ((∀ f ∈ fields, ∀ it ∈ f.items, itemOk it = true) →
      (field_codes fields).isSome = true) := by
  constructor
  · rintro ⟨f, hf, it, hit, u, us, hu, hcolon⟩
    unfold field_codes
    apply foldMO_none _ f _ _ _ hf
    intro fc
    exact foldMO_none (itemStep f.label) it
      (itemStep_colon_none f.label it u us hu hcolon) f.items fc hit
  · intro hok
    unfold field_codes
    apply foldMO_isSome
    intro f hf fc
    apply foldMO_isSome
    intro it hit fc'
    exact itemStep_isSome f.label it (hok f hf it hit) fc'

/-- Witness for C10: a colon-free uri (`nocolonhere`) makes the scan fail,
while a response whose uris all contain colons scans successfully. -/
theorem code_extraction_colon_guard_witness :
    field_codes c10bad = none ∧ (field_codes c10good).isSome = true :=
  ⟨(code_extraction_colon_guard c10bad).1
    ⟨⟨"Geo", [c10badItem]⟩, by decide, c10badItem, by decide, "nocolonhere", [],
      by decide, by decide⟩,
   (code_extraction_colon_guard c10good).2 (by decide)⟩

/-! ### Lemmas about first-occurrence deduplication -/

theorem pdUniqueAux_all_seen {α : Type} [DecidableEq α] :
    ∀ (l seen : List α), (∀ y ∈ l, y ∈ seen) → pdUniqueAux seen l = [] := by
  intro l
  induction l with
  | nil => intro seen _; rfl
  | cons x xs ih =>
    intro seen h
    simp only [pdUniqueAux, if_pos (h x (by simp))]
    exact ih seen (fun y hy => h y (List.mem_cons_of_mem _ hy))

theorem pdUniqueAux_append_absorb {α : Type} [DecidableEq α] :
    ∀ (xs ys seen : List α), (∀ y ∈ ys, y ∈ seen ∨ y ∈ xs) →
    pdUniqueAux seen (xs ++ ys) = pdUniqueAux seen xs := by
  intro xs
  induction xs with
  | nil =>
    intro ys seen h
    rw [List.nil_append]
    apply pdUniqueAux_all_seen
    intro y hy
    rcases h y hy with h' | h'
    · exact h'
    · simp at h'
  | cons x xs' ih =>
    intro ys seen h
    rw [List.cons_append]
    by_cases hx : x ∈ seen
    · simp only [pdUniqueAux, if_pos hx]
      apply ih
      intro y hy
      rcases h y hy with h' | h'
      · exact Or.inl h'
      · rcases List.mem_cons.mp h' with rfl | h''
        · exact Or.inl hx
        · exact Or.inr h''
    · simp only [pdUniqueAux, if_neg hx]
      congr 1
      apply ih
      intro y hy
      rcases h y hy with h' | h'
      · exact Or.inl (List.mem_cons_of_mem _ h')
      · rcases List.mem_cons.mp h' with rfl | h''
        · exact Or.inl (List.mem_cons_self _ _)
        · exact Or.inr h''

theorem pdUniqueAux_skip_front {α : Type} [DecidableEq α] :
    ∀ (pre rest seen : List α), (∀ y ∈ pre, y ∈ seen) →
    pdUniqueAux seen (pre ++ rest) = pdUniqueAux seen rest := by
  intro pre
  induction pre with
  | nil => intro rest seen _; rfl
  | cons x xs ih =>
    intro rest seen h
    rw [List.cons_append]
    simp only [pdUniqueAux, if_pos (h x (by simp))]
    exact ih rest seen (fun y hy => h y (List.mem_cons_of_mem _ hy))

theorem pdUniqueAux_congr_seen {α : Type} [DecidableEq α] :
    ∀ (l seen1 seen2 : List α), (∀ a, a ∈ seen1 ↔ a ∈ seen2) →
    pdUniqueAux seen1 l = pdUniqueAux seen2 l := by
  intro l
  induction l with
  | nil => intro _ _ _; rfl
  | cons x xs ih =>
    intro seen1 seen2 h
    by_cases hx : x ∈ seen1
    · simp only [pdUniqueAux, if_pos hx, if_pos ((h x).mp hx)]
      exact ih seen1 seen2 h
    · have hx2 : x ∉ seen2 := fun e => hx ((h x).mpr e)
      simp only [pdUniqueAux, if_neg hx, if_neg hx2]
      congr 1
      apply ih
      intro a
      simp only [List.mem_cons]
      rw [h a]

theorem pdUniqueAux_drop_seen {α : Type} [DecidableEq α] :
    ∀ (l seen : List α) (s : α), s ∉ l →
    pdUniqueAux (s :: seen) l = pdUniqueAux seen l := by
  intro l
  induction l with
  | nil => intro seen s _; rfl
  | cons x xs ih =>
    intro seen s hs
    have hxs : x ≠ s := fun e => hs (by simp [e])
    have hs' : s ∉ xs := fun e => hs (List.mem_cons_of_mem _ e)
    by_cases hx : x ∈ seen
    · simp only [pdUniqueAux, if_pos (List.mem_cons_of_mem _ hx), if_pos hx]
      exact ih seen s hs'
    · have hx2 : x ∉ s :: seen := by
        intro hmem
        rcases List.mem_cons.mp hmem with h | h
        · exact hxs h
        · exact hx h
      simp only [pdUniqueAux, if_neg hx2, if_neg hx]
      congr 1
      calc pdUniqueAux (x :: s :: seen) xs
          = pdUniqueAux (s :: x :: seen) xs := by
            apply pdUniqueAux_congr_seen
            intro a
            simp only [List.mem_cons]
            tauto
        _ = pdUniqueAux (x :: seen) xs := ih (x :: seen) s hs'

theorem pdUniqueAux_nodup {α : Type} [DecidableEq α] :
    ∀ (l seen : List α), (pdUniqueAux seen l).Nodup ∧
      ∀ x ∈ pdUniqueAux seen l, x ∉ seen := by
  intro l
  induction l with
  | nil => intro seen; exact ⟨List.nodup_nil, by simp [pdUniqueAux]⟩
  | cons x xs ih =>
    intro seen
    by_cases hx : x ∈ seen
    · simp only [pdUniqueAux, if_pos hx]
      exact ih seen
    · simp only [pdUniqueAux, if_neg hx]
      obtain ⟨hnd, hni⟩ := ih (x :: seen)
      refine ⟨?_, ?_⟩
      · rw [List.nodup_cons]
        exact ⟨fun hmem => (hni x hmem) (by simp), hnd⟩
      · intro y hy
        rcases List.mem_cons.mp hy with rfl | hy'
        · exact hx
        · exact fun hyseen => hni y hy' (List.mem_cons_of_mem _ hyseen)

theorem pdUnique_nodup {α : Type} [DecidableEq α] (l : List α) : (pdUnique l).Nodup :=
  (pdUniqueAux_nodup l []).1

theorem pdUnique_flatten_const {α : Type} [DecidableEq α] (l0 : List String)
    (T : List α) (h : l0 ≠ []) :
    pdUnique ((l0.map (fun _ => T)).flatten) = pdUnique T := by
  cases l0 with
  | nil => exact absurd rfl h
  | cons a as =>
    simp only [List.map_cons, List.flatten_cons]
    unfold pdUnique
    apply pdUniqueAux_append_absorb
    intro y hy
    right
    rw [List.mem_flatten] at hy
    obtain ⟨s, hs, hys⟩ := hy
    rw [List.mem_map] at hs
    obtain ⟨_, _, rfl⟩ := hs
    exact hys

theorem pdUnique_flatten_replicate {α : Type} [DecidableEq α] :
    ∀ (l1 : List α) (k : Nat), 0 < k → l1.Nodup →
    pdUnique ((l1.map (fun b => List.replicate k b)).flatten) = l1 := by
  intro l1
  induction l1 with
  | nil => intro k _ _; rfl
  | cons b bs ih =>
    intro k hk hnd
    obtain ⟨k', rfl⟩ : ∃ k', k = k' + 1 := ⟨k - 1, by omega⟩
    simp only [List.map_cons, List.flatten_cons]
    rw [List.replicate_succ, List.cons_append]
    unfold pdUnique
    simp only [pdUniqueAux, if_neg (List.not_mem_nil b)]
    congr 1
    rw [pdUniqueAux_skip_front (List.replicate k' b) _ [b]
      (fun y hy => by simp [List.eq_of_mem_replicate hy])]
    have hbs : b ∉ bs := (List.nodup_cons.mp hnd).1
    have hbR : b ∉ (bs.map (fun x => List.replicate (k' + 1) x)).flatten := by
      intro hmem
      rw [List.mem_flatten] at hmem
      obtain ⟨s, hs, hbs'⟩ := hmem
      rw [List.mem_map] at hs
      obtain ⟨x, hx, rfl⟩ := hs
      rw [List.eq_of_mem_replicate hbs'] at hbs
      exact hbs hx
    rw [pdUniqueAux_drop_seen _ [] b hbR]
    exact ih (k' + 1) (by omega) (List.nodup_cons.mp hnd).2

/-! ### Lemmas about the lexicographic orders and the insertion sorts -/

theorem charListLt_irrefl : ∀ cs, charListLt cs cs = false := by
  intro cs
  induction cs with
  | nil => rfl
  | cons c cs ih => simp [charListLt, lt_irrefl, ih]

theorem charListLt_trans : ∀ (a b c : List Char),
    charListLt a b = true → charListLt b c = true → charListLt a c = true := by
  intro a
  induction a with
  | nil =>
    intro b c hab hbc
    cases b with
    | nil => simp [charListLt] at hab
    | cons bb bs =>
      cases c with
      | nil => simp [charListLt] at hbc
      | cons cc cs => simp [charListLt]
  | cons aa as ih =>
    intro b c hab hbc
    cases b with
    | nil => simp [charListLt] at hab
    | cons bb bs =>
      cases c with
      | nil => simp [charListLt] at hbc
      | cons cc cs =>
        simp only [charListLt] at hab hbc ⊢
        by_cases h1 : aa < bb
        · by_cases h2 : bb < cc
          · simp [lt_trans h1 h2]
          · rw [if_neg h2] at hbc
            by_cases h3 : bb = cc
            · subst h3
              simp [h1]
            · rw [if_neg h3] at hbc
              simp at hbc
        · rw [if_neg h1] at hab
          by_cases h3 : aa = bb
          · subst h3
            rw [if_pos rfl] at hab
            by_cases h2 : aa < cc
            · simp [h2]
            · rw [if_neg h2] at hbc ⊢
              by_cases h4 : aa = cc
              · rw [if_pos h4] at hbc
                rw [if_pos h4]
                exact ih bs cs hab hbc
              · rw [if_neg h4] at hbc
                simp at hbc
          · rw [if_neg h3] at hab
            simp at hab

theorem charListLt_connex : ∀ (a b : List Char),
    charListLt a b = false → charListLt b a = false → a = b := by
  intro a
  induction a with
  | nil =>
    intro b hab _
    cases b with
    | nil => rfl
    | cons bb bs => simp [charListLt] at hab
  | cons aa as ih =>
    intro b hab hba
    cases b with
    | nil => simp [charListLt] at hba
    | cons bb bs =>
      simp only [charListLt] at hab hba
      by_cases h1 : aa < bb
      · rw [if_pos h1] at hab
        simp at hab
      · by_cases h2 : bb < aa
        · rw [if_pos h2] at hba
          simp at hba
        · have h3 : aa = bb := le_antisymm (not_lt.mp h2) (not_lt.mp h1)
          subst h3
          simp only [lt_irrefl, if_false, if_pos rfl] at hab hba
          rw [ih bs hab hba]

theorem charListLt_asymm (a b : List Char) (h : charListLt a b = true) :
    charListLt b a = false := by
  by_contra hc
  rw [Bool.not_eq_false] at hc
  have habs := charListLt_trans a b a h hc
  rw [charListLt_irrefl] at habs
  simp at habs

theorem strLt_trans (a b c : String) (h1 : strLt a b = true) (h2 : strLt b c = true) :
    strLt a c = true :=
  charListLt_trans a.data b.data c.data h1 h2

theorem strLt_connex (a b : String) (h1 : strLt a b = false) (h2 : strLt b a = false) :
    a = b := by
  have hd := charListLt_connex a.data b.data h1 h2
  cases a
  cases b
  simp_all

theorem strLt_asymm (a b : String) (h : strLt a b = true) : strLt b a = false :=
  charListLt_asymm a.data b.data h

theorem keyLt_trans : ∀ (a b c : List String),
    keyLt a b = true → keyLt b c = true → keyLt a c = true := by
  intro a
  induction a with
  | nil =>
    intro b c hab hbc
    cases b with
    | nil => simp [keyLt] at hab
    | cons bb bs =>
      cases c with
      | nil => simp [keyLt] at hbc
      | cons cc cs => simp [keyLt]
  | cons aa as ih =>
    intro b c hab hbc
    cases b with
    | nil => simp [keyLt] at hab
    | cons bb bs =>
      cases c with
      | nil => simp [keyLt] at hbc
      | cons cc cs =>
        simp only [keyLt] at hab hbc ⊢
        by_cases h1 : strLt aa bb = true
        · by_cases h2 : strLt bb cc = true
          · simp [strLt_trans aa bb cc h1 h2]
          · rw [if_neg h2] at hbc
            by_cases h3 : bb = cc
            · subst h3
              simp [h1]
            · rw [if_neg h3] at hbc
              simp at hbc
        · rw [if_neg h1] at hab
          by_cases h3 : aa = bb
          · subst h3
            rw [if_pos rfl] at hab
            by_cases h2 : strLt aa cc = true
            · simp [h2]
            · rw [if_neg h2] at hbc ⊢
              by_cases h4 : aa = cc
              · rw [if_pos h4] at hbc
                rw [if_pos h4]
                exact ih bs cs hab hbc
              · rw [if_neg h4] at hbc
                simp at hbc
          · rw [if_neg h3] at hab
            simp at hab

theorem keyLt_connex : ∀ (a b : List String),
    keyLt a b = false → keyLt b a = false → a = b := by
  intro a
  induction a with
  | nil =>
    intro b hab _
    cases b with
    | nil => rfl
    | cons bb bs => simp [keyLt] at hab
  | cons aa as ih =>
    intro b hab hba
    cases b with
    | nil => simp [keyLt] at hba
    | cons bb bs =>
      simp only [keyLt] at hab hba
      by_cases h1 : strLt aa bb = true
      · rw [if_pos h1] at hab
        simp at hab
      · by_cases h2 : strLt bb aa = true
        · rw [if_pos h2] at hba
          simp at hba
        · have h3 : aa = bb := strLt_connex aa bb
            (by rw [Bool.not_eq_true] at h1; exact h1)
            (by rw [Bool.not_eq_true] at h2; exact h2)
          subst h3
          rw [if_neg h1, if_pos rfl] at hab
          rw [if_neg h2, if_pos rfl] at hba
          rw [ih bs hab hba]

theorem keyLt_irrefl : ∀ a, keyLt a a = false := by
  intro a
  induction a with
  | nil => rfl
  | cons x xs ih => simp [keyLt, strLt, charListLt_irrefl, ih]

theorem keyLt_asymm (a b : List String) (h : keyLt a b = true) : keyLt b a = false := by
  by_contra hc
  rw [Bool.not_eq_false] at hc
  have habs := keyLt_trans a b a h hc
  rw [keyLt_irrefl] at habs
  simp at habs

theorem insertKey_perm (x : List String) : ∀ l, (insertKey x l).Perm (x :: l) := by
  intro l
  induction l with
  | nil => simp [insertKey]
  | cons y ys ih =>
    by_cases h : keyLt x y = true
    · rw [insertKey, if_pos h]
    · rw [insertKey, if_neg h]
      exact (ih.cons y).trans (List.Perm.swap x y ys)

theorem sortKeys_perm : ∀ l, (sortKeys l).Perm l := by
  intro l
  induction l with
  | nil => simp [sortKeys]
  | cons x xs ih =>
    rw [sortKeys]
    exact (insertKey_perm x (sortKeys xs)).trans (ih.cons x)

theorem insertKey_pairwise (x : List String) :
    ∀ l, l.Pairwise (fun a b => keyLt b a = false) →
    (insertKey x l).Pairwise (fun a b => keyLt b a = false) := by
  intro l
  induction l with
  | nil => intro _; simp [insertKey]
  | cons y ys ih =>
    intro hp
    rw [List.pairwise_cons] at hp
    obtain ⟨hy, hys⟩ := hp
    by_cases hxy : keyLt x y = true
    · rw [insertKey, if_pos hxy, List.pairwise_cons]
      refine ⟨?_, ?_⟩
      · intro b hb
        rcases List.mem_cons.mp hb with rfl | hb'
        · exact keyLt_asymm x b hxy
        · have hby := hy b hb'
          by_contra hc
          rw [Bool.not_eq_false] at hc
          have := keyLt_trans b x y hc hxy
          simp [this] at hby
      · rw [List.pairwise_cons]
        exact ⟨hy, hys⟩
    · rw [insertKey, if_neg hxy, List.pairwise_cons]
      refine ⟨?_, ?_⟩
      · intro b hb
        have hb2 : b = x ∨ b ∈ ys := by
          have := (insertKey_perm x ys).mem_iff.mp hb
          simpa using this
        rcases hb2 with rfl | hb'
        · simpa using hxy
        · exact hy b hb'
      · exact ih hys

theorem sortKeys_pairwise : ∀ l, (sortKeys l).Pairwise (fun a b => keyLt b a = false) := by
  intro l
  induction l with
  | nil => simp [sortKeys]
  | cons x xs ih =>
    rw [sortKeys]
    exact insertKey_pairwise x _ ih

theorem pairwise_keyLt_of_nodup (l : List (List String))
    (hs : l.Pairwise (fun a b => keyLt b a = false)) (hnd : l.Nodup) :
    l.Pairwise (fun a b => keyLt a b = true) := by
  have hand := hs.and hnd
  apply hand.imp
  intro a b hab
  obtain ⟨hle, hne⟩ := hab
  by_contra hc
  rw [Bool.not_eq_true] at hc
  exact hne (keyLt_connex a b hc hle)

theorem insertStr_perm (x : String) : ∀ l, (insertStr x l).Perm (x :: l) := by
  intro l
  induction l with
  | nil => simp [insertStr]
  | cons y ys ih =>
    by_cases h : strLt x y = true
    · rw [insertStr, if_pos h]
    · rw [insertStr, if_neg h]
      exact (ih.cons y).trans (List.Perm.swap x y ys)

theorem sortStrings_perm : ∀ l, (sortStrings l).Perm l := by
  intro l
  induction l with
  | nil => simp [sortStrings]
  | cons x xs ih =>
    rw [sortStrings]
    exact (insertStr_perm x (sortStrings xs)).trans (ih.cons x)

/-! ### Lemmas about the pivot reshaper -/

theorem zip_map_fst_eq {α β γ : Type} (l1 : List α) (l2 : List β) (f : α → γ)
    (h : l1.length = l2.length) :
    (l1.zip l2).map (fun p => f p.1) = l1.map f := by
  have h1 : (l1.zip l2).map Prod.fst = l1 := List.map_fst_zip l1 l2 (le_of_eq h)
  have h2 : (l1.zip l2).map (fun p => f p.1) = ((l1.zip l2).map Prod.fst).map f := by
    rw [List.map_map]
    rfl
  rw [h2, h1]

theorem cartesian_map_headI (ls : List String) (rest : List (List String)) :
    (cartesian (ls :: rest)).map List.headI =
      (ls.map (fun b => List.replicate (cartesian rest).length b)).flatten := by
  rw [cartesian, List.map_flatten, List.map_map]
  congr 1
  apply List.map_congr_left
  intro b _
  simp only [Function.comp]
  rw [List.map_map]
  have heq : (List.headI ∘ fun t => b :: t) = fun _ => b := by
    funext t
    rfl
  rw [heq, List.map_const']

theorem cartesian_map_second (ls0 : List String) (M : List (List String)) :
    (cartesian (ls0 :: M)).map (fun t => t.tail.headI) =
      (ls0.map (fun _ => (cartesian M).map List.headI)).flatten := by
  rw [cartesian, List.map_flatten, List.map_map]
  congr 1
  apply List.map_congr_left
  intro a _
  simp only [Function.comp]
  rw [List.map_map]
  have heq : ((fun t => List.headI (List.tail t)) ∘ fun t => a :: t) = List.headI := by
    funext t
    rfl
  rw [heq]

theorem odLookupStr_record_second (n0 n1 : String) (ns : List String)
    (t : List String) (ml : String) (v : Int)
    (hn : n0 ≠ n1) (hlen : t.length = (n0 :: n1 :: ns).length) :
    odLookupStr ((((n0 :: n1 :: ns).zip t).map (fun q => (q.1, Cell.s q.2))) ++
        [(ml, Cell.v v)]) n1 = t.tail.headI := by
  obtain ⟨a, b, ts, rfl⟩ : ∃ a b ts, t = a :: b :: ts := by
    cases t with
    | nil => simp at hlen
    | cons a t' =>
      cases t' with
      | nil => simp at hlen
      | cons b ts => exact ⟨a, b, ts, rfl⟩
  simp only [List.zip_cons_cons, List.map_cons, List.cons_append]
  unfold odLookupStr odLookup
  rw [List.find?_cons_of_neg _ (by simp [hn])]
  rw [List.find?_cons_of_pos _ (by simp)]
  simp

theorem measure_records_col (r : Results) (m : Measure) (c : Cube)
    (f0 f1 : Field) (fs : List Field)
    (hfields : r.fields = f0 :: f1 :: fs)
    (hnodup : (fieldNames r).Nodup)
    (hc : lookupCube r.cubes m.uri = some c) :
    (measureRecordsSpec r m).map (fun rec => odLookupStr rec f1.label) =
      ((cartesian (fieldLabelsI r)).zip (flatten c)).map (fun p => p.1.tail.headI) := by
  unfold measureRecordsSpec
  rw [hc]
  rw [List.map_map]
  apply List.map_congr_left
  intro p hp
  obtain ⟨t, v⟩ := p
  simp only [Function.comp]
  have ht := (List.of_mem_zip hp).1
  have htlen : t.length = (fieldLabelsI r).length := cartesian_mem_length _ _ ht
  have hnames : fieldNames r = f0.label :: f1.label :: fs.map (fun f => f.label) := by
    simp [fieldNames, hfields]
  have hlen2 : t.length = (f0.label :: f1.label :: fs.map (fun f => f.label)).length := by
    rw [htlen, ← hnames]
    simp [fieldNames, fieldLabelsI]
  have hn01 : f0.label ≠ f1.label := by
    rw [hnames] at hnodup
    have hni := (List.nodup_cons.mp hnodup).1
    intro e
    exact hni (by rw [e]; simp)
  rw [hnames]
  exact odLookupStr_record_second _ _ _ t m.label v hn01 hlen2

theorem reorderCols_fields (pt : PivotTable) (labels : List String) (pt' : PivotTable)
    (h : reorderCols pt labels = some pt') :
    pt'.colNames = labels ∧ pt'.rowKeys = pt.rowKeys := by
  unfold reorderCols at h
  by_cases hc : (labels.all (fun l => pt.colNames.contains l)) = true
  · rw [if_pos hc] at h
    have he := Option.some.inj h
    rw [← he]
    exact ⟨rfl, rfl⟩
  · rw [if_neg hc] at h
    simp at h

theorem pivot_table_rowKeys (recs : List Record) (vn : String) (idx : List String)
    (cn : String) :
    (pivot_table recs vn idx cn).rowKeys =
      sortKeys (pdUnique (recs.map (fun rec => rowKeyOf idx rec))) := rfl

/-- C5 (amended): for every single-measure response with two or more
well-formed fields, the pivot branch succeeds and the pivoted table's
columns appear in the original response order of field 1's item labels
(captured before the pivot and re-selected after it), while the rows appear
in the pivot's lexicographically ascending key order, not in source
order. -/
theorem pivot_column_order (r : Results) (f0 f1 : Field) (fs : List Field) (m : Measure)
    (hfields : r.fields = f0 :: f1 :: fs)
    (hms : r.measures = [m])
    (hnodup : (fieldNames r).Nodup)
    (hlabels : ∀ f ∈ r.fields, ∀ it ∈ f.items, it.labels ≠ [])
    (hpos : ∀ f ∈ r.fields, f.items ≠ [])
    (hm : m.label ∉ fieldNames r)
    (hcube : cubeOk r.cubes (dimsOf r) m.uri = true)
    (hf1 : (f1.items.map (fun it => it.labels.headI)).Nodup) :
    ∃ recs pt, build_data r = some recs ∧ reshape_pivot r recs = some pt ∧
      pt.colNames = f1.items.map (fun it => it.labels.headI) ∧
      pt.rowKeys.Pairwise (fun x y => keyLt x y = true) := by
  have hfne : r.fields ≠ [] := by rw [hfields]; simp
  have hmall : ∀ m' ∈ r.measures, m'.label ∉ fieldNames r := by
    rw [hms]
    intro m' hm'
    simp at hm'
    subst hm'
    exact hm
  have hcall : ∀ m' ∈ r.measures, cubeOk r.cubes (dimsOf r) m'.uri = true := by
    rw [hms]
    intro m' hm'
    simp at hm'
    subst hm'
    exact hcube
  have hbd := build_data_eq r hfne hnodup hlabels hpos hmall hcall
  rw [hms] at hbd
  have hrecseq : (([m] : List Measure).map (measureRecordsSpec r)).flatten =
      measureRecordsSpec r m := by simp
  rw [hrecseq] at hbd
  have hnames : fieldNames r = f0.label :: f1.label :: fs.map (fun f => f.label) := by
    simp [fieldNames, hfields]
  obtain ⟨c, hc, hshape⟩ := cubeOk_elim _ _ _ hcube
  have hlen : (cartesian (fieldLabelsI r)).length = (flatten c).length := by
    rw [cartesian_length, fieldLabelsI_lengths, flatten_length _ _ hshape]
  have hcolvals : (measureRecordsSpec r m).map (fun rec => odLookupStr rec f1.label) =
      (cartesian (fieldLabelsI r)).map (fun t => t.tail.headI) := by
    rw [measure_records_col r m c f0 f1 fs hfields hnodup hc]
    exact zip_map_fst_eq _ _ (fun t => t.tail.headI) hlen
  have hLcons : fieldLabelsI r =
      (f0.items.map (fun it => it.labels.headI)) ::
      (f1.items.map (fun it => it.labels.headI)) ::
      fs.map (fun f => f.items.map (fun it => it.labels.headI)) := by
    simp [fieldLabelsI, hfields]
  have hpos0 : f0.items ≠ [] := hpos f0 (by rw [hfields]; simp)
  have h0ne : f0.items.map (fun it => it.labels.headI) ≠ [] := by
    intro e
    exact hpos0 (List.map_eq_nil_iff.mp e)
  have hkpos : 0 <
      (cartesian (fs.map (fun f => f.items.map (fun it => it.labels.headI)))).length := by
    rw [cartesian_length]
    apply List.prod_pos
    intro a ha
    simp only [List.map_map, List.mem_map, Function.comp] at ha
    obtain ⟨f, hf, rfl⟩ := ha
    simp only [List.length_map]
    exact List.length_pos.mpr (hpos f (by rw [hfields]; simp [hf]))
  have hcl : pdUnique ((measureRecordsSpec r m).map (fun rec => odLookupStr rec f1.label)) =
      f1.items.map (fun it => it.labels.headI) := by
    rw [hcolvals, hLcons, cartesian_map_second, pdUnique_flatten_const _ _ h0ne,
      cartesian_map_headI, pdUnique_flatten_replicate _ _ hkpos hf1]
  have hrp : reshape_pivot r (measureRecordsSpec r m) =
      reorderCols
        (pivot_table (measureRecordsSpec r m) m.label
          (f0.label :: fs.map (fun f => f.label)) f1.label)
        (pdUnique ((measureRecordsSpec r m).map
          (fun rec => odLookupStr rec f1.label))) := by
    unfold reshape_pivot
    simp only [hnames, hms]
  have hall : ((pdUnique ((measureRecordsSpec r m).map
        (fun rec => odLookupStr rec f1.label))).all
      (fun l => ((pivot_table (measureRecordsSpec r m) m.label
        (f0.label :: fs.map (fun f => f.label)) f1.label).colNames.contains l)))
      = true := by
    rw [List.all_eq_true]
    intro l hl
    unfold pivot_table
    simp only
    have hmem : l ∈ sortStrings (pdUnique ((measureRecordsSpec r m).map
        (fun rec => odLookupStr rec f1.label))) :=
      (sortStrings_perm _).symm.mem_iff.mp hl
    exact List.elem_eq_true_of_mem hmem
  have hex : ∃ pt, reshape_pivot r (measureRecordsSpec r m) = some pt := by
    rw [hrp]
    unfold reorderCols
    rw [if_pos hall]
    exact ⟨_, rfl⟩
  obtain ⟨pt, hpt⟩ := hex
  have hrc : reorderCols
      (pivot_table (measureRecordsSpec r m) m.label
        (f0.label :: fs.map (fun f => f.label)) f1.label)
      (pdUnique ((measureRecordsSpec r m).map
        (fun rec => odLookupStr rec f1.label))) = some pt := by
    rw [← hrp]
    exact hpt
  obtain ⟨hcn, hrk⟩ := reorderCols_fields _ _ _ hrc
  refine ⟨measureRecordsSpec r m, pt, hbd, hpt, ?_, ?_⟩
  · rw [hcn, hcl]
  · rw [hrk, pivot_table_rowKeys]
    exact pairwise_keyLt_of_nodup _ (sortKeys_pairwise _)
      ((sortKeys_perm _).symm.nodup (pdUnique_nodup _))

/-- Witness for C5 (amended) at the spec's example response `c5ex`:
columns come out as `[b1, b2]` (source order) and the rows are sorted. -/
theorem pivot_column_order_witness :
    ∃ recs pt, build_data c5ex = some recs ∧ reshape_pivot c5ex recs = some pt ∧
      pt.colNames = (⟨"B", [⟨["b1"], none⟩, ⟨["b2"], none⟩]⟩ : Field).items.map
        (fun it => it.labels.headI) ∧
      pt.rowKeys.Pairwise (fun x y => keyLt x y = true) :=
  pivot_column_order c5ex ⟨"A", [⟨["a2"], none⟩, ⟨["a1"], none⟩]⟩
    ⟨"B", [⟨["b1"], none⟩, ⟨["b2"], none⟩]⟩ [] ⟨"M", "m"⟩
    rfl rfl (by decide) (by decide) (by decide) (by decide) (by decide) (by decide)

/-- C5 (evidence of the divergence): at the spec's two-field example with
source row order `[a2, a1]`, the pipeline returns columns `[b1, b2]` as
claimed but rows `[a1, a2]` — the pivot's sorted order, not the source
order `[a2, a1]` asserted by the claim. -/
theorem pivot_rows_resorted :
    c5pipeline = some ⟨["A"], [["a1"], ["a2"]], ["b1", "b2"],
      [[some 3, some 4], [some 1, some 2]]⟩ ∧
    ([["a1"], ["a2"]] : List (List String)) ≠ [["a2"], ["a1"]] :=
  ⟨by decide, by decide⟩

end StatXplorer
